import Mathlib

/-!
A shallow embedding of the duplicate-resolution core of `src/main.py`
(ROM deduplication tool): filename metadata extraction (`RomInfo._parse_filename`),
the priority scorer (`get_priority_score` and friends), and the three-phase
duplicate resolver (`DuplicateDetector.find_duplicates`).

Conventions of the embedding:
* Python strings are `String`/`List Char`; only ASCII text is considered
  (the regexes in the source are ASCII-oriented; `\s`, `.lower()`, `.upper()`,
  `.isdigit()`, `.isalpha()` are modelled on ASCII characters).
* A Python expression that can raise an exception is modelled in `Option`
  (`none` = an exception propagates).  The only uncaught exception reachable
  from the resolution phases is `ord` applied to a multi-character string in
  `get_revision_score`; the `int(p)` failures inside the version loop are
  caught by the `try/except` and modelled by `Option.getD 0`.
* Python dicts preserve insertion order; they are modelled as association
  lists to which new keys are appended at the end.
* Python's `sorted(..., key=..., reverse=True)` is a stable descending sort;
  it is modelled by a stable insertion sort on precomputed keys (stable sorts
  under a total preorder agree, so the model output equals CPython's).
* `rom.path.relative_to(self.roms_dir)` strips a fixed prefix from paths that
  are all under `roms_dir`; this is injective, so decisions here keep the
  full path string.
* Python `set` iteration order is implementation defined; the sets of tags
  are modelled as insertion-ordered duplicate-free lists.  The claims never
  depend on the iteration order of these sets.
-/

/-- Python ASCII whitespace, as matched by `\s` and stripped by `str.strip()`. -/
def isPyWs (c : Char) : Bool :=
  c = ' ' || c = '\t' || c = '\n' || c = '\x0d' || c = '\x0b' || c = '\x0c'

/-- ASCII decimal digit. -/
def isDigitCh (c : Char) : Bool := '0' ≤ c && c ≤ '9'

/-- ASCII letter. -/
def isAlphaCh (c : Char) : Bool := ('a' ≤ c && c ≤ 'z') || ('A' ≤ c && c ≤ 'Z')

/-- One pass of `re.sub(r'<op>([^<cl>]+)<cl>', '', s)` over a character list:
a left-to-right scan; at an `op` the scanner looks for the next `cl`; if it
exists and is not adjacent, the whole group is removed and scanning resumes
after it, otherwise the `op` is kept and the scan moves on.  The fuel
argument makes the recursion structural; any fuel `≥ s.length` gives the
fixed point of the scan (out of fuel the remainder is returned unchanged). -/
def tagSubF (op cl : Char) : Nat → List Char → List Char
  | _, [] => []
  | 0, c :: rest => c :: rest
  | Nat.succ f, c :: rest =>
    if c = op then
      match rest.dropWhile (· != cl), rest.takeWhile (· != cl) with
      | _ :: r2, _ :: _ => tagSubF op cl f r2
      | _, _ => c :: tagSubF op cl f rest
    else c :: tagSubF op cl f rest

/-- `re.sub(r'<op>([^<cl>]+)<cl>', '', s)`. -/
def tagSub (op cl : Char) (s : List Char) : List Char := tagSubF op cl s.length s

/-- `re.findall(r'<op>([^<cl>]+)<cl>', s)`: the group contents, in match order. -/
def tagFindF (op cl : Char) : Nat → List Char → List (List Char)
  | _, [] => []
  | 0, _ :: _ => []
  | Nat.succ f, c :: rest =>
    if c = op then
      match rest.dropWhile (· != cl), rest.takeWhile (· != cl) with
      | _ :: r2, p :: pre => (p :: pre) :: tagFindF op cl f r2
      | _, _ => tagFindF op cl f rest
    else tagFindF op cl f rest

/-- `re.findall` wrapper with enough fuel. -/
def tagFind (op cl : Char) (s : List Char) : List (List Char) := tagFindF op cl s.length s

/-- `re.sub(r'\s+', ' ', s)`: every maximal whitespace run becomes one space.
The boolean flag records whether the previous character was whitespace. -/
def collapseWsAux : Bool → List Char → List Char
  | _, [] => []
  | prevWs, c :: rest =>
    if isPyWs c then
      if prevWs then collapseWsAux true rest else ' ' :: collapseWsAux true rest
    else c :: collapseWsAux false rest

/-- `re.sub(r'\s+', ' ', s)`. -/
def collapseWs (s : List Char) : List Char := collapseWsAux false s

/-- Drop the longest suffix whose characters satisfy `p`. -/
def dropTrailWhile (p : Char → Bool) (s : List Char) : List Char :=
  (s.reverse.dropWhile p).reverse

/-- `str.strip()` (ASCII whitespace on both ends). -/
def pyStrip (s : List Char) : List Char :=
  dropTrailWhile isPyWs (s.dropWhile isPyWs)

/-- Hyphen or underscore, the characters of `re.sub(r'[-_]+$', '', s)`. -/
def isSep (c : Char) : Bool := c = '-' || c = '_'

/-- Base-name extraction of `_parse_filename` (src/main.py lines 191-195):
remove parenthetical groups, then bracket groups, collapse whitespace and
strip, remove one trailing hyphen/underscore run and strip again. -/
def extractBaseL (s : List Char) : List Char :=
  pyStrip (dropTrailWhile isSep (pyStrip (collapseWs (tagSub '[' ']' (tagSub '(' ')' s)))))

/-- `extractBaseL` on `String`s. -/
def extractBase (s : String) : String := ⟨extractBaseL s.data⟩

/-- `re.split(r'[,\s]+', s)`: split on maximal runs of commas/whitespace,
keeping the (possibly empty) pieces at both ends, as CPython does. -/
def isSplitSep (c : Char) : Bool := c = ',' || isPyWs c

/-- The splitter itself, built from the right. -/
def splitSepRuns : List Char → List (List Char)
  | [] => [[]]
  | c :: rest =>
    if isSplitSep c then
      match rest.head? with
      | some d => if isSplitSep d then splitSepRuns rest else [] :: splitSepRuns rest
      | none => [] :: splitSepRuns rest
    else
      match splitSepRuns rest with
      | p :: ps => (c :: p) :: ps
      | [] => [c :: rest]

/-- `str.split('.')` keeping empty pieces. -/
def splitOnDot : List Char → List (List Char)
  | [] => [[]]
  | c :: rest =>
    if c = '.' then [] :: splitOnDot rest
    else
      match splitOnDot rest with
      | p :: ps => (c :: p) :: ps
      | [] => [c :: rest]

/-- `str.lower()` (ASCII). -/
def pyLower (s : String) : String := ⟨s.data.map Char.toLower⟩

/-- `str.upper()` (ASCII). -/
def pyUpper (s : String) : String := ⟨s.data.map Char.toUpper⟩

/-- `str.strip()` on `String`s. -/
def pyStripStr (s : String) : String := ⟨pyStrip s.data⟩

/-- Python substring test `a in b`. -/
def pyIn (a b : String) : Bool := decide (List.IsInfix a.data b.data)

/-- Python truthiness of an optional string: `None` and `""` are falsy. -/
def truthy : Option String → Option String
  | none => none
  | some s => if s.data = [] then none else some s

/-- `s.isdigit()` restricted to ASCII: nonempty and all decimal digits. -/
def pyIsDigitStr (s : String) : Bool := !s.data.isEmpty && s.data.all isDigitCh

/-- `s.isalpha()` restricted to ASCII: nonempty and all letters. -/
def pyIsAlphaStr (s : String) : Bool := !s.data.isEmpty && s.data.all isAlphaCh

/-- `ord(s)`: the code point of a one-character string, an exception otherwise. -/
def pyOrd (s : String) : Option Nat :=
  match s.data with
  | [c] => some c.toNat
  | _ => none

/-- The numeric value of an ASCII digit string. -/
def digitsToNat (s : List Char) : Nat :=
  s.foldl (fun n c => 10 * n + (c.toNat - 48)) 0

/-- `int(p)` for the digit/dot pieces produced by the `v([\d.]+)` version
regex: succeeds exactly on nonempty all-digit strings (an empty piece, or a
piece with a non-digit, raises `ValueError`, modelled by `none`). -/
def pyIntOpt (s : List Char) : Option Nat :=
  if s.isEmpty then none
  else if s.all isDigitCh then some (digitsToNat s) else none

/-- Case-insensitive literal prefix match: on success, the remainder. -/
def stripCi : List Char → List Char → Option (List Char)
  | [], s => some s
  | _ :: _, [] => none
  | l :: ls, c :: cs => if c.toLower = l.toLower then stripCi ls cs else none

/-- `[A-Z0-9]` under `re.IGNORECASE`. -/
def isAlnumCh (c : Char) : Bool := isDigitCh c || isAlphaCh c

/-- `re.match(r'Rev\s*([A-Z0-9]+)', tag, re.IGNORECASE)`: the group. -/
def matchRev (s : List Char) : Option (List Char) :=
  match stripCi ['r', 'e', 'v'] s with
  | none => none
  | some r1 =>
    let g := (r1.dropWhile isPyWs).takeWhile isAlnumCh
    if g.isEmpty then none else some g

/-- `re.match(r'v([\d.]+)', tag, re.IGNORECASE)`: the group. -/
def matchVer (s : List Char) : Option (List Char) :=
  match stripCi ['v'] s with
  | none => none
  | some r1 =>
    let g := r1.takeWhile (fun c => isDigitCh c || c = '.')
    if g.isEmpty then none else some g

/-- `re.match(r'Dis[ck]\s*(\d+)', tag, re.IGNORECASE)`: the group. -/
def matchDisc (s : List Char) : Option (List Char) :=
  match stripCi ['d', 'i', 's'] s with
  | none => none
  | some r1 =>
    match r1 with
    | [] => none
    | c :: r2 =>
      if c.toLower = 'c' || c.toLower = 'k' then
        let g := (r2.dropWhile isPyWs).takeWhile isDigitCh
        if g.isEmpty then none else some g
      else none

/-- `re.match(r'Side\s*([AB\d]+)', tag, re.IGNORECASE)`: the group. -/
def matchSide (s : List Char) : Option (List Char) :=
  match stripCi ['s', 'i', 'd', 'e'] s with
  | none => none
  | some r1 =>
    let g := (r1.dropWhile isPyWs).takeWhile
      (fun c => c.toLower = 'a' || c.toLower = 'b' || isDigitCh c)
    if g.isEmpty then none else some g

/-- `re.match(r'^[hptbof]\d*$', tag, re.IGNORECASE)` as a Bool. -/
def matchHptbof (s : List Char) : Bool :=
  match s with
  | [] => false
  | c :: rest =>
    (c.toLower = 'h' || c.toLower = 'p' || c.toLower = 't' ||
     c.toLower = 'b' || c.toLower = 'o' || c.toLower = 'f') && rest.all isDigitCh

/-- The `REGION_PRIORITY` dict of src/main.py (insertion order preserved). -/
def REGION_PRIORITY : List (String × Nat) :=
  [("USA", 100), ("U", 100), ("US", 100), ("America", 100),
   ("Europe", 80), ("E", 80), ("EU", 80),
   ("World", 70), ("W", 70),
   ("Japan", 50), ("J", 50), ("JP", 50),
   ("Korea", 40), ("K", 40), ("Asia", 40),
   ("France", 35), ("F", 35), ("Germany", 35), ("G", 35),
   ("Spain", 35), ("S", 35), ("Italy", 35), ("I", 35),
   ("Australia", 60), ("A", 60),
   ("Brazil", 30), ("B", 30), ("China", 30), ("C", 30)]

/-- `dict.get(k, default)` on an insertion-ordered association list. -/
def dictGetNat (d : List (String × Nat)) (k : String) (dflt : Nat) : Nat :=
  match d.find? (fun kv => kv.1 = k) with
  | some kv => kv.2
  | none => dflt

/-- The `REMOVE_TAGS` set (only membership/substring tests are used). -/
def REMOVE_TAGS : List String :=
  ["Beta", "Proto", "Prototype", "Sample", "Demo", "Preview", "Promo",
   "Pre-Release", "Prerelease", "Debug", "Test",
   "Pirate", "Unl", "Unlicensed", "Bootleg",
   "BIOS", "Program"]

/-- The `REMOVE_BRACKET_TAGS` set. -/
def REMOVE_BRACKET_TAGS : List String :=
  ["h", "h1", "h2", "h3", "h4", "h5",
   "t", "t1", "t2", "t3",
   "p", "p1", "p2", "p3", "p4", "p5",
   "b", "b1", "b2", "b3",
   "o", "o1",
   "f", "f1",
   "T+"]

/-- `GOOD_DUMP_TAG`. -/
def GOOD_DUMP_TAG : String := "!"

/-- The `SOURCE_VARIANTS` set.  The Python `for sv in SOURCE_VARIANTS` loop
iterates a set in unspecified order; the model iterates the literal's written
order.  The claims only depend on whether some variant matched, which is
order-independent. -/
def SOURCE_VARIANTS : List String :=
  ["Virtual Console", "Switch Online", "Evercade", "Wii", "3DS",
   "NSO", "Classic Mini", "Mini", "Genesis Mini", "Mega Drive Mini"]

/-- The `PREFERRED_FORMATS` dict (insertion order preserved). -/
def PREFERRED_FORMATS : List (String × List String) :=
  [("Commodore 64", [".d64", ".g64", ".crt", ".prg", ".t64", ".tap", ".nib"]),
   ("Commodore VIC-20", [".d64", ".crt", ".prg", ".t64", ".tap"]),
   ("Commodore Amiga", [".adf", ".ipf", ".lha", ".hdf"]),
   ("Sinclair ZX Spectrum", [".tzx", ".z80", ".tap", ".sna"]),
   ("Amstrad CPC", [".dsk", ".cdt", ".sna"]),
   ("MSX", [".rom", ".dsk", ".cas"]),
   ("Atari ST", [".st", ".stx", ".msa", ".ipf"]),
   ("NEC PC-98", [".hdi", ".fdi", ".d98", ".fdd"])]

/-- The parsed per-file record of class `RomInfo` (src/main.py lines 153-176).
`tags` and `bracket_tags` are Python sets, modelled as insertion-ordered
duplicate-free lists. -/
structure RomInfo where
  path : String
  platform : String
  extension : String
  size : Nat
  md5 : Option String
  base_name : String
  regions : List String
  revision : Option String
  version : Option String
  disc_number : Option String
  side_number : Option String
  tags : List String
  bracket_tags : List String
  is_bad : Bool
  is_good_dump : Bool
  source_variant : Option String
deriving DecidableEq, Repr

/-- `set.add`: append if not already present. -/
def addSet (l : List String) (s : String) : List String :=
  if l.contains s then l else l ++ [s]

/-- Membership test of the region classifier (src/main.py line 205):
`part in REGION_PRIORITY or part.upper() in [r.upper() for r in REGION_PRIORITY]`. -/
def isRegionToken (part : String) : Bool :=
  REGION_PRIORITY.any (fun kv => kv.1 = part) ||
    REGION_PRIORITY.any (fun kv => pyUpper kv.1 = pyUpper part)

/-- Processing of one parenthetical tag (src/main.py lines 198-237). -/
def applyParenTag (r : RomInfo) (tagRaw : String) : RomInfo :=
  let tc := pyStripStr tagRaw
  let parts := (splitSepRuns tc.data).map (fun p => String.mk (pyStrip p))
  let regions2 := r.regions ++ parts.filter isRegionToken
  let revision2 := match matchRev tc.data with
    | some g => some (String.mk g)
    | none => r.revision
  let version2 := match matchVer tc.data with
    | some g => some (String.mk g)
    | none => r.version
  let disc2 := match matchDisc tc.data with
    | some g => some (String.mk g)
    | none => r.disc_number
  let side2 := match matchSide tc.data with
    | some g => some (String.mk g)
    | none => r.side_number
  let isBadTag := REMOVE_TAGS.contains tc || REMOVE_TAGS.any (fun t => pyIn t tc)
  let tags2 := if isBadTag then addSet r.tags tc else r.tags
  let isBad2 := if isBadTag then true else r.is_bad
  let sv2 := match SOURCE_VARIANTS.find? (fun sv => pyIn (pyLower sv) (pyLower tc)) with
    | some sv => some sv
    | none => r.source_variant
  { r with regions := regions2, revision := revision2, version := version2,
           disc_number := disc2, side_number := side2,
           tags := tags2, is_bad := isBad2, source_variant := sv2 }

/-- Processing of one bracket tag (src/main.py lines 240-249). -/
def applyBracketTag (r : RomInfo) (tagRaw : String) : RomInfo :=
  let tc := pyStripStr tagRaw
  let bt2 := addSet r.bracket_tags tc
  if tc = GOOD_DUMP_TAG then
    { r with bracket_tags := bt2, is_good_dump := true }
  else if REMOVE_BRACKET_TAGS.any (fun t => pyLower t = pyLower tc) then
    { r with bracket_tags := bt2, is_bad := true }
  else if matchHptbof tc.data then
    { r with bracket_tags := bt2, is_bad := true }
  else
    { r with bracket_tags := bt2 }

/-- `RomInfo._parse_filename` applied to a filename stem, starting from the
`__init__` defaults; `path`, `platform`, `extension`, `size`, `md5` are not
set here (see `mkRomInfo`). -/
def parseStem (stem : String) : RomInfo :=
  let name := stem.data
  let parenTags := (tagFind '(' ')' name).map String.mk
  let bracketTags := (tagFind '[' ']' name).map String.mk
  let r0 : RomInfo :=
    { path := "", platform := "", extension := "", size := 0, md5 := none,
      base_name := String.mk (extractBaseL name),
      regions := [], revision := none, version := none,
      disc_number := none, side_number := none,
      tags := [], bracket_tags := [],
      is_bad := false, is_good_dump := false, source_variant := none }
  let r1 := parenTags.foldl applyParenTag r0
  bracketTags.foldl applyBracketTag r1

/-- Build the `RomInfo` of a file `parent/stem+ext`: `platform` is the parent
directory name, `extension` the lower-cased suffix, and the stem is parsed.
(`Path.stem`/`Path.suffix`/`Path.parent.name` are modelled by passing the
three components separately; `path` is their concatenation.) -/
def mkRomInfo (parent stem ext : String) (size : Nat) (md5 : Option String) : RomInfo :=
  { parseStem stem with
    path := parent ++ "/" ++ stem ++ ext,
    platform := parent,
    extension := pyLower ext,
    size := size,
    md5 := md5 }

/-- `RomInfo.get_normalized_name` (src/main.py lines 251-264). -/
def get_normalized_name (r : RomInfo) : String :=
  let n1 := (r.base_name.data.map Char.toLower).filter
    (fun c => !(c = '\'' || c = '"' || c = '-'))
  let n2 := pyStrip (collapseWs n1)
  let n3 := match truthy r.disc_number with
    | some d => n2 ++ (" disc ".data ++ d.data)
    | none => n2
  let n4 := match truthy r.side_number with
    | some s => n3 ++ (" side ".data ++ s.data)
    | none => n3
  String.mk n4

/-- An exact rational number `num / (den1 + 1)`, kept unreduced: the value of
a Python numeric expression of the revision scorer (an `int`, or the float
`100.0 ** (3-i)` for deep version components, modelled exactly).  Comparisons
cross-multiply, so the representation never needs normalizing. -/
structure PyNum where
  num : Int
  den1 : Nat
deriving DecidableEq, Repr

/-- The (positive) denominator. -/
def PyNum.den (a : PyNum) : Nat := a.den1 + 1

/-- Embed a Python `int`. -/
def PyNum.ofNat (n : Nat) : PyNum := ⟨(n : Int), 0⟩

/-- Embed a (possibly negative) Python `int`. -/
def PyNum.ofInt (n : Int) : PyNum := ⟨n, 0⟩

instance (n : Nat) : OfNat PyNum n := ⟨PyNum.ofNat n⟩

/-- Exact addition. -/
def PyNum.add (a b : PyNum) : PyNum :=
  ⟨a.num * (b.den : Int) + b.num * (a.den : Int), a.den * b.den - 1⟩

/-- Exact multiplication. -/
def PyNum.mul (a b : PyNum) : PyNum := ⟨a.num * b.num, a.den * b.den - 1⟩

/-- Numeric `a <= b` by cross-multiplication. -/
def PyNum.le (a b : PyNum) : Prop := a.num * (b.den : Int) ≤ b.num * (a.den : Int)

/-- Numeric `a < b` by cross-multiplication. -/
def PyNum.lt (a b : PyNum) : Prop := a.num * (b.den : Int) < b.num * (a.den : Int)

instance PyNum.decLe : DecidableRel PyNum.le := fun _ _ => by
  unfold PyNum.le; infer_instance

instance PyNum.decLt : DecidableRel PyNum.lt := fun _ _ => by
  unfold PyNum.lt; infer_instance

/-- Lexicographic "less or equal" combinator: compare the first components,
ties are decided by `q` on the second components.  This is how Python
compares tuples. -/
def lexLe {α β : Type} [LT α] (q : β → β → Prop) (a b : α × β) : Prop :=
  a.1 < b.1 ∨ (a.1 = b.1 ∧ q a.2 b.2)

instance lexLe.decRel {α β : Type} [LT α] [DecidableEq α]
    [∀ x y : α, Decidable (x < y)] (q : β → β → Prop) [DecidableRel q] :
    DecidableRel (lexLe (α := α) (β := β) q) := fun _ _ => by
  unfold lexLe; infer_instance

/-- The priority-score tuple `(bad_score, source, good_dump, region, revision)`
of `get_priority_score`.  The last component is the revision/version score. -/
abbrev Score : Type := Nat × Nat × Nat × Nat × PyNum

/-- Python tuple comparison `a <= b` on `Score`. -/
def scoreLE : Score → Score → Prop :=
  lexLe (α := ℕ) (β := ℕ × ℕ × ℕ × PyNum)
    (lexLe (α := ℕ) (β := ℕ × ℕ × PyNum)
      (lexLe (α := ℕ) (β := ℕ × PyNum)
        (lexLe (α := ℕ) (β := PyNum) PyNum.le)))

instance scoreLE.decRel : DecidableRel scoreLE := by
  unfold scoreLE; infer_instance

/-- `max(...)` over a nonempty list (0 for the empty list, which the caller
excludes). -/
def listMax1 : List Nat → Nat
  | [] => 0
  | x :: xs => xs.foldl max x

/-- `RomInfo.get_region_priority` (src/main.py lines 266-270). -/
def get_region_priority (r : RomInfo) : Nat :=
  if r.regions.isEmpty then 0
  else listMax1 (r.regions.map (fun reg =>
    dictGetNat REGION_PRIORITY reg (dictGetNat REGION_PRIORITY (pyUpper reg) 0)))

/-- `100 ** (3-i)` at version-component index `i`.  For `i ≤ 3` this is the
Python integer; for `i > 3` Python produces the float `100.0 ** (3-i)`,
modelled exactly as the rational `1/100^(i-3)` (no claim exercises version
strings with five or more components, where float rounding could differ). -/
def posWeight (i : Nat) : PyNum :=
  if i ≤ 3 then PyNum.ofNat (100 ^ (3 - i)) else ⟨1, 100 ^ (i - 3) - 1⟩

/-- The loop `for i, p in enumerate(parts): score += int(p) * (100 ** (3-i))`
(src/main.py lines 283-287); `none` when some `int(p)` raises. -/
def versionScoreGo : Nat → List (List Char) → Option PyNum
  | _, [] => some 0
  | i, p :: ps =>
    match pyIntOpt p with
    | none => none
    | some n =>
      match versionScoreGo (i + 1) ps with
      | none => none
      | some rest => some (((PyNum.ofNat n).mul (posWeight i)).add rest)

/-- The version part of `get_revision_score`: split on dots and sum the
weighted components; the `try/except` catches any failure and the function
then returns 0. -/
def versionScore (v : String) : Option PyNum := versionScoreGo 0 (splitOnDot v.data)

/-- The fall-through of `get_revision_score` when the revision field does not
decide the score: use `version` if truthy (failures caught, giving 0), else 0. -/
def versionFallback (r : RomInfo) : PyNum :=
  match truthy r.version with
  | some v => (versionScore v).getD 0
  | none => 0

/-- `RomInfo.get_revision_score` (src/main.py lines 272-290).  `none` models
the uncaught `TypeError` of `ord(self.revision.upper())` when the purely
alphabetic revision has more than one character.  The alphabetic branch is
Python's `ord(rev.upper()) - ord('A') + 1`, an `int`. -/
def get_revision_score (r : RomInfo) : Option PyNum :=
  match truthy r.revision with
  | some rev =>
    if pyIsDigitStr rev then some (PyNum.ofNat (digitsToNat rev.data))
    else if pyIsAlphaStr rev then
      (pyOrd (pyUpper rev)).map (fun n => PyNum.ofInt ((n : Int) - 65 + 1))
    else some (versionFallback r)
  | none => some (versionFallback r)

/-- `RomInfo.get_priority_score` (src/main.py lines 292-305):
`(bad_score, source, good_dump, region, revision)`. -/
def get_priority_score (r : RomInfo) : Option Score :=
  (get_revision_score r).map (fun rev =>
    (if r.is_bad then 0 else 1,
     if (truthy r.source_variant).isSome then 0 else 1,
     if r.is_good_dump then 1 else 0,
     get_region_priority r,
     rev))

/-- Score every rom of a list (the `key=` evaluations of `sorted`); `none`
when any score raises. -/
def scoreList (roms : List RomInfo) : Option (List (Score × RomInfo)) :=
  roms.mapM (fun r => (get_priority_score r).map (fun s => (s, r)))

/-- Stable insertion into a descending list: `x` goes after every element
whose score is `≥` its own. -/
def insertDesc (x : Score × RomInfo) : List (Score × RomInfo) → List (Score × RomInfo)
  | [] => [x]
  | y :: rest => if scoreLE x.1 y.1 then y :: insertDesc x rest else x :: y :: rest

/-- `sorted(..., key=get_priority_score, reverse=True)`: stable descending
sort.  A stable sort under a total preorder is unique, so this insertion sort
computes exactly CPython's result. -/
def sortDesc (l : List (Score × RomInfo)) : List (Score × RomInfo) :=
  l.foldl (fun acc x => insertDesc x acc) []

/-- Append `v` to the bucket of key `k`, creating the bucket at the end on a
new key (Python dict/defaultdict insertion-order semantics). -/
def insertAssoc {β : Type} (m : List (String × List β)) (k : String) (v : β) :
    List (String × List β) :=
  match m with
  | [] => [(k, [v])]
  | (k2, vs) :: rest =>
    if k2 = k then (k2, vs ++ [v]) :: rest else (k2, vs) :: insertAssoc rest k v

/-- Find a key's value in an association list. -/
def assocFind {β : Type} (m : List (String × β)) (k : String) : Option β :=
  (m.find? (fun kv => kv.1 = k)).map (·.2)

/-- `self.by_hash`: buckets of roms with the same (truthy) md5, in scan
order (src/main.py lines 363-364). -/
def hashInsert (m : List (String × List RomInfo)) (r : RomInfo) :
    List (String × List RomInfo) :=
  match r.md5 with
  | some h => if h.data = [] then m else insertAssoc m h r
  | none => m

def indexByHash (roms : List RomInfo) : List (String × List RomInfo) :=
  roms.foldl hashInsert []

/-- One insertion into the nested `self.by_name[platform][norm_name]` map. -/
def insertAssoc2 (m : List (String × List (String × List RomInfo)))
    (p k : String) (v : RomInfo) : List (String × List (String × List RomInfo)) :=
  match m with
  | [] => [(p, [(k, [v])])]
  | (p2, g) :: rest =>
    if p2 = p then (p2, insertAssoc g k v) :: rest else (p2, g) :: insertAssoc2 rest p k v

/-- `self.by_name` (src/main.py lines 367-368). -/
def indexByName (roms : List RomInfo) :
    List (String × List (String × List RomInfo)) :=
  roms.foldl (fun m r => insertAssoc2 m r.platform (get_normalized_name r) r) []

/-- One entry of `self.duplicates` (the RemovalDecision of the spec). -/
structure Decision where
  platform : String
  remove : String
  keep : String
  reason : String
  size : Nat
deriving DecidableEq, Repr

/-- `sep.join(l)`. -/
def joinSep (sep : String) : List String → String
  | [] => ""
  | x :: xs => xs.foldl (fun acc s => acc ++ sep ++ s) x

/-- The fixed Phase-1 reason text. -/
def exactReason : String := "Exact duplicate (hash match)"

/-- `DuplicateDetector._get_preferred_formats` (src/main.py lines 486-491):
first configured platform whose lower-cased name is a substring of the
lower-cased platform label. -/
def getPreferredFormats (platform : String) : List String :=
  match PREFERRED_FORMATS.find? (fun kv => pyIn (pyLower kv.1) (pyLower platform)) with
  | some kv => kv.2
  | none => []

/-- `DuplicateDetector._get_removal_reason` (src/main.py lines 493-523).
`none` models an exception escaping from one of the two
`get_revision_score` calls. -/
def get_removal_reason (rom keeper : RomInfo) : Option String :=
  match get_revision_score rom, get_revision_score keeper with
  | some rv, some kv =>
    let l1 := if rom.is_bad && !rom.tags.isEmpty then
        ["Bad variant: " ++ joinSep ", " rom.tags] else []
    let l2 := if rom.is_bad && rom.bracket_tags.any
          (fun t => REMOVE_BRACKET_TAGS.any (fun x => pyLower x = pyLower t)) then
        ["Bad dump tag: [" ++ joinSep ", " rom.bracket_tags ++ "]"] else []
    let l3 := if (truthy rom.source_variant).isSome && !(truthy keeper.source_variant).isSome then
        ["Source variant: " ++ rom.source_variant.getD ""] else []
    let l4 := if rom.extension ≠ keeper.extension then
        ["Non-preferred format: " ++ rom.extension] else []
    let l5 := if get_region_priority rom < get_region_priority keeper then
        ["Lower region priority: " ++
          (if rom.regions.isEmpty then "Unknown" else joinSep ", " rom.regions)] else []
    let l6 := if rv.lt kv then
        ["Older revision: " ++ ((truthy rom.revision).getD ((truthy rom.version).getD "base"))]
      else []
    let l7 := if !rom.is_good_dump && keeper.is_good_dump then ["Not verified dump"] else []
    let rs := l1 ++ l2 ++ l3 ++ l4 ++ l5 ++ l6 ++ l7
    some (joinSep "; " (if rs.isEmpty then ["Duplicate (name match)"] else rs))
  | _, _ => none

/-- The Phase-1 emission loop over the non-keeper members of a hash bucket
(src/main.py lines 399-408). -/
def emitExact (keeper : RomInfo) : List RomInfo → List String → List Decision × List String
  | [], proc => ([], proc)
  | r :: rs, proc =>
    if r.path ∈ proc then emitExact keeper rs proc
    else
      let rec2 := emitExact keeper rs (r.path :: proc)
      ({ platform := r.platform, remove := r.path, keep := keeper.path,
         reason := exactReason, size := r.size } :: rec2.1, rec2.2)

/-- Phase 1 over the hash buckets (src/main.py lines 392-408). -/
def phase1 : List (String × List RomInfo) → List String → Option (List Decision × List String)
  | [], proc => some ([], proc)
  | (_, roms) :: rest, proc =>
    if 1 < roms.length then
      match scoreList roms with
      | none => none
      | some scored =>
        match sortDesc scored with
        | [] => phase1 rest proc
        | k :: tl =>
          let p := emitExact k.2 (tl.map (·.2)) proc
          match phase1 rest p.2 with
          | none => none
          | some (ds2, p3) => some (p.1 ++ ds2, p3)
    else phase1 rest proc

/-- The format preference order of Phase 2 (src/main.py lines 430-436):
the configured preferred formats that are present, then the remaining present
formats in first-seen order. -/
def formatOrder (pref : List String) (byFmt : List (String × List RomInfo)) : List String :=
  let keys := byFmt.map (·.1)
  let l1 := pref.filter (fun f => keys.contains f)
  l1 ++ keys.filter (fun f => !l1.contains f)

/-- The Phase-2 keeper of a group's undecided files (src/main.py lines
421-448): the top-scoring file within the first present extension of the
preference order.  `some none` models `keeper is None` (the group is skipped),
`none` models an exception while scoring the first-format bucket. -/
def phase2KeeperE (platform : String) (remaining : List RomInfo) :
    Option (Option RomInfo) :=
  let byFmt := remaining.foldl (fun m r => insertAssoc m r.extension r) []
  match formatOrder (getPreferredFormats platform) byFmt with
  | [] => some none
  | f0 :: _ =>
    match scoreList ((assocFind byFmt f0).getD []) with
    | none => none
    | some scored =>
      match sortDesc scored with
      | [] => some none
      | k :: _ => some (some k.2)

/-- The Phase-2 emission loop over a group's remaining files
(src/main.py lines 450-467). -/
def emitGroup (keeper : RomInfo) : List RomInfo → List String → Option (List Decision × List String)
  | [], proc => some ([], proc)
  | r :: rs, proc =>
    if r.path = keeper.path then emitGroup keeper rs proc
    else if r.path ∈ proc then emitGroup keeper rs proc
    else
      match get_removal_reason r keeper with
      | none => none
      | some reason =>
        match emitGroup keeper rs (r.path :: proc) with
        | none => none
        | some (ds, p2) =>
          some ({ platform := r.platform, remove := r.path, keep := keeper.path,
                  reason := reason, size := r.size } :: ds, p2)

/-- Phase 2 for one `(platform, norm_name)` group (src/main.py lines 412-467). -/
def processGroup (platform : String) (roms : List RomInfo) (proc : List String) :
    Option (List Decision × List String) :=
  if roms.length ≤ 1 then some ([], proc)
  else
    let remaining := roms.filter (fun r => !decide (r.path ∈ proc))
    if remaining.length ≤ 1 then some ([], proc)
    else
      match phase2KeeperE platform remaining with
      | none => none
      | some none => some ([], proc)
      | some (some k) => emitGroup k remaining proc

/-- Phase 2 over the name groups of one platform. -/
def phase2Groups (platform : String) :
    List (String × List RomInfo) → List String → Option (List Decision × List String)
  | [], proc => some ([], proc)
  | (_, roms) :: rest, proc =>
    match processGroup platform roms proc with
    | none => none
    | some (ds, p2) =>
      match phase2Groups platform rest p2 with
      | none => none
      | some (ds2, p3) => some (ds ++ ds2, p3)

/-- Phase 2 over all platforms (src/main.py lines 410-467). -/
def phase2 : List (String × List (String × List RomInfo)) → List String →
    Option (List Decision × List String)
  | [], proc => some ([], proc)
  | (plat, groups) :: rest, proc =>
    match phase2Groups plat groups proc with
    | none => none
    | some (ds, p2) =>
      match phase2 rest p2 with
      | none => none
      | some (ds2, p3) => some (ds ++ ds2, p3)

/-- Phase 3: standalone bad roms (src/main.py lines 469-481). -/
def phase3 : List RomInfo → List String → List Decision × List String
  | [], proc => ([], proc)
  | r :: rs, proc =>
    if r.path ∈ proc then phase3 rs proc
    else if r.is_bad then
      let rec2 := phase3 rs (r.path :: proc)
      ({ platform := r.platform, remove := r.path, keep := "(none - bad ROM)",
         reason := "Bad ROM: " ++
           (let t := joinSep ", " r.tags;
            if t = "" then joinSep ", " r.bracket_tags else t),
         size := r.size } :: rec2.1, rec2.2)
    else phase3 rs proc

/-- `DuplicateDetector.find_duplicates` (src/main.py lines 386-484) on a
scanned list of roms: the ordered decision list, `none` when the run raises. -/
def find_duplicates (roms : List RomInfo) : Option (List Decision) :=
  match phase1 (indexByHash roms) [] with
  | none => none
  | some (ds1, p1) =>
    match phase2 (indexByName roms) p1 with
    | none => none
    | some (ds2, p2) =>
      some (ds1 ++ ds2 ++ (phase3 roms p2).1)

/-- The hash bucket of `h` (empty if `h` was never inserted). -/
def bucketOf (roms : List RomInfo) (h : String) : List RomInfo :=
  (assocFind (indexByHash roms) h).getD []

/-- The path of the Phase-1 keeper of a bucket: head of the stable descending
sort by priority score. -/
def phase1KeeperPath (bkt : List RomInfo) : Option String :=
  match scoreList bkt with
  | none => none
  | some scored =>
    match sortDesc scored with
    | [] => none
    | k :: _ => some k.2.path

/-- Modelled from the claim/spec wording of `regionRank` (spec §4.2): a fully
case-insensitive lookup, under which any casing of a recognized region name
yields that region's configured weight. -/
def ciRegionWeight (reg : String) : Nat :=
  match REGION_PRIORITY.find? (fun kv => pyUpper kv.1 = pyUpper reg) with
  | some kv => kv.2
  | none => 0

/-- Modelled from the claim's words: maximum of the case-insensitive weights,
0 with no region. -/
def regionRankCaseInsensitive (regions : List String) : Nat :=
  if regions.isEmpty then 0 else listMax1 (regions.map ciRegionWeight)

/-- The lookup the code actually performs for one region token: exact key,
else upper-cased key, else 0. -/
def exactOrUpperWeight (reg : String) : Nat :=
  dictGetNat REGION_PRIORITY reg (dictGetNat REGION_PRIORITY (pyUpper reg) 0)

/-- The amended claim's region rank: fold of the exact-or-upper lookups. -/
def regionRankAmendedSpec (regions : List String) : Nat :=
  (regions.map exactOrUpperWeight).foldr max 0

/-- Plain dictionary lookup into `REGION_PRIORITY` (0 when absent), used to
state the region-ordering claims. -/
def regionWeight (k : String) : Nat := dictGetNat REGION_PRIORITY k 0

/-- Modelled from the claim's words (C8): a version score where a
non-numeric dot-separated component contributes zero weight at its position
while the numeric components still contribute their positional weights. -/
def versionScoreLenient (v : String) : PyNum :=
  ((splitOnDot v.data).enum.map
    (fun ip => (PyNum.ofNat ((pyIntOpt ip.2).getD 0)).mul (posWeight ip.1))).foldr
    PyNum.add 0

/-- Two byte-identical files on one platform where the parser accepts the
multi-letter revision code `AA` (matched by `Rev\s*([A-Z0-9]+)`). -/
def romsRevAA : List RomInfo :=
  [mkRomInfo "NES" "Game (Rev AA)" ".nes" 1 (some "h"),
   mkRomInfo "NES" "GameB" ".nes" 1 (some "h")]

/-- A collection in which the Phase-1 hash keeper later loses its Phase-2
name group, and a bad Phase-2 keeper receives a Phase-3 standalone decision. -/
def romsChain : List RomInfo :=
  [mkRomInfo "NES" "Game" ".nes" 10 (some "h1"),
   mkRomInfo "NES" "Game (USA)" ".nes" 11 (some "h1"),
   mkRomInfo "NES" "Game (v1.1) (USA)" ".nes" 12 (some "h2"),
   mkRomInfo "NES" "Other (Beta)" ".nes" 13 (some "h3"),
   mkRomInfo "NES" "Other (Beta) (USA)" ".nes" 14 (some "h4")]

/-- Two byte-identical files (same hash) that also share platform and
normalized name. -/
def romsPair : List RomInfo :=
  [mkRomInfo "NES" "Game" ".nes" 10 (some "h1"),
   mkRomInfo "NES" "Game (USA)" ".nes" 11 (some "h1")]

/-- A Commodore 64 name group with a high-scoring `.prg` file and a plain
`.d64` file (the platform's preferred-format table lists `.d64` first). -/
def romsC64 : List RomInfo :=
  [mkRomInfo "Commodore 64" "Game (USA)" ".prg" 5 none,
   mkRomInfo "Commodore 64" "Game" ".d64" 5 none]

/-- "The next close delimiter, if any, is immediately adjacent": the head is
`cl`, or `cl` does not occur at all.  A string all of whose open delimiters
satisfy this has no `<op>([^<cl>]+)<cl>` match. -/
def FirstClose (cl : Char) (s : List Char) : Prop :=
  s.head? = some cl ∨ cl ∉ s

/-- No-match invariant for the pair `(op, cl)`: every occurrence of `op` is
followed by an adjacent `cl` or by no `cl` at all. -/
def NM (op cl : Char) : List Char → Prop
  | [] => True
  | c :: rest => (c = op → FirstClose cl rest) ∧ NM op cl rest

/-- Whitespace-normal form: every whitespace character is a single space not
followed by another whitespace character (the image of `collapseWs`). -/
def WN : List Char → Prop
  | [] => True
  | c :: rest =>
    (isPyWs c = true → c = ' ' ∧ ∀ d, rest.head? = some d → isPyWs d = false) ∧ WN rest

/-- The literal characters of `" disc "`. -/
def discLit : List Char := [' ', 'd', 'i', 's', 'c', ' ']

/-- The literal characters of `" side "`. -/
def sideLit : List Char := [' ', 's', 'i', 'd', 'e', ' ']

/-- The disc/side suffix appended by `get_normalized_name`, as a function of
the (truthy) disc and side values. -/
def mkSuffix (d s : Option (List Char)) : List Char :=
  (match d with
   | some l => discLit ++ l
   | none => []) ++
  (match s with
   | some l => sideLit ++ l
   | none => [])

/-- The cleaned base name of `get_normalized_name` (lower-case, punctuation
stripped, whitespace collapsed, stripped). -/
def cleanBase (b : String) : List Char :=
  pyStrip (collapseWs ((b.data.map Char.toLower).filter
    (fun c => !(c = '\'' || c = '"' || c = '-'))))

/-- Look a (platform, normalized-name) group up in `by_name`. -/
def lookupNameGroup (roms : List RomInfo) (plat nm : String) : Option (List RomInfo) :=
  (assocFind (indexByName roms) plat).bind (fun g => assocFind g nm)

/-- The emission invariant shared by all three phases: starting from the
decided-path set `proc`, the emitted decisions `ds` remove pairwise distinct
paths, none already decided, the decided set only grows, and every emitted
removal is decided afterwards. -/
def EmitsOK (proc : List String) (ds : List Decision) (proc2 : List String) : Prop :=
  (ds.map Decision.remove).Nodup ∧
  (∀ d ∈ ds, d.remove ∉ proc) ∧
  (∀ x ∈ proc, x ∈ proc2) ∧
  (∀ d ∈ ds, d.remove ∈ proc2)

/-- Every element of the list scores at most the head (descending lists). -/
def HeadMax (l : List (Score × RomInfo)) : Prop :=
  ∀ p, l.head? = some p → ∀ q ∈ l, scoreLE q.1 p.1

/-! ## Small arithmetic/list helpers -/

theorem listMax1_foldl (xs : List Nat) (x : Nat) :
    xs.foldl max x = max x (xs.foldr max 0) := by
  induction xs generalizing x with
  | nil => simp
  | cons y ys ih =>
    simp only [List.foldl, List.foldr, ih (max x y), Nat.max_assoc]

theorem versionScoreGo_of_bad (parts : List (List Char)) :
    ∀ i, (∃ p ∈ parts, pyIntOpt p = none) → versionScoreGo i parts = none := by
  induction parts with
  | nil => simp
  | cons q ps ih =>
    intro i h
    rcases h with ⟨p, hp, hnone⟩
    rcases List.mem_cons.1 hp with rfl | hmem
    · unfold versionScoreGo; rw [hnone]
    · unfold versionScoreGo
      cases hq : pyIntOpt q with
      | none => rfl
      | some n => rw [ih (i + 1) ⟨p, hmem, hnone⟩]

/-! ## Claim C2 -/

/-- Claim C2 (code bug): the resolution phases are claimed to be total, but a
revision string matched by the `Rev`-tag pattern with more than one letter
(here `AA`, from the stem `Game (Rev AA)`) is accepted by the parser and
makes `get_revision_score` evaluate `ord("AA")`, an uncaught `TypeError`
(modelled by `none`), which crashes `find_duplicates` on any collection that
scores that file; a single-letter revision does give the 1-based alphabet
position (`B` gives 2). -/
theorem revAA_crashes_resolution :
    (parseStem "Game (Rev AA)").revision = some "AA" ∧
    pyIsAlphaStr "AA" = true ∧
    get_revision_score (parseStem "Game (Rev AA)") = none ∧
    get_revision_score (parseStem "Game (Rev B)") = some 2 ∧
    find_duplicates romsRevAA = none := by decide

/-! ## Claim C6 -/

/-- Claim C6 counterexample: `Japan`, `Korea` and `Asia` are claimed to form
one tier of the region-weight table, but the configured weights differ
(`Japan` is 50 while `Korea` is 40). -/
theorem region_tier_japan_ne_korea :
    regionWeight "Japan" = 50 ∧ regionWeight "Korea" = 40 ∧
    regionWeight "Japan" ≠ regionWeight "Korea" := by decide

/-- Claim C6 amended: the configured region weights are strictly decreasing
tier by tier in the order USA/US > Europe > World > Australia > Japan >
Korea/Asia > {France, Germany, Spain, Italy} > Brazil/China, with uniform
weights inside every listed group except that Japan (50) sits strictly above
Korea and Asia (40). -/
theorem region_priority_ordering_amended :
    regionWeight "USA" = regionWeight "US" ∧
    regionWeight "US" > regionWeight "Europe" ∧
    regionWeight "Europe" > regionWeight "World" ∧
    regionWeight "World" > regionWeight "Australia" ∧
    regionWeight "Australia" > regionWeight "Japan" ∧
    regionWeight "Japan" > regionWeight "Korea" ∧
    regionWeight "Korea" = regionWeight "Asia" ∧
    regionWeight "Asia" > regionWeight "France" ∧
    regionWeight "France" = regionWeight "Germany" ∧
    regionWeight "Germany" = regionWeight "Spain" ∧
    regionWeight "Spain" = regionWeight "Italy" ∧
    regionWeight "Italy" > regionWeight "Brazil" ∧
    regionWeight "Brazil" = regionWeight "China" := by decide

/-! ## Claim C7 -/

/-- Claim C7 counterexample: the lower-cased token `europe` is recognized as
a region by the parser (it ends up in `regions`), the claimed case-insensitive
lookup would give Europe's weight 80, but `get_region_priority` returns 0:
the code's `dict.get(r, dict.get(r.upper(), 0))` lookup misses `Europe`
because `"europe".upper() = "EUROPE"` is not a key. -/
theorem region_priority_not_case_insensitive :
    (parseStem "Game (europe)").regions = ["europe"] ∧
    regionRankCaseInsensitive (parseStem "Game (europe)").regions = 80 ∧
    get_region_priority (parseStem "Game (europe)") = 0 := by decide

/-- Claim C7 amended: `regionRank` is the maximum, over the recognized region
tokens, of an exact-key lookup with an upper-cased-key fallback (so an
upper-case abbreviation casing works but a casing that is neither a key nor
upper-cases to a key contributes 0), or 0 when no region was recognized. -/
theorem region_priority_exact_or_upper (r : RomInfo) :
    get_region_priority r = regionRankAmendedSpec r.regions := by
  unfold get_region_priority regionRankAmendedSpec exactOrUpperWeight
  cases h : r.regions with
  | nil => simp
  | cons a as =>
    simp only [List.isEmpty_cons, List.map_cons, listMax1, listMax1_foldl, List.foldr,
      Bool.false_eq_true, if_false]

/-! ## Claim C8 -/

/-- Claim C8 counterexample: the version string `1..2` (parsed from the stem
`Game (v1..2)`) has a non-numeric (empty) middle component; the claim says the
numeric components still contribute (which would give 1000200), but
`get_revision_score` rejects the whole string and scores 0. -/
theorem version_nonnumeric_rejected_counterexample :
    (parseStem "Game (v1..2)").version = some "1..2" ∧
    versionScoreLenient "1..2" = 1000200 ∧
    get_revision_score (parseStem "Game (v1..2)") = some 0 := by decide

/-- Claim C8 amended: when the revision field does not already decide the
score and the truthy version string contains any component on which `int`
fails (for the regex-produced strings: an empty or non-digit component), the
entire version string is rejected and the revision score is 0 — no component
contributes. -/
theorem version_nonnumeric_rejects_whole (r : RomInfo) (v : String)
    (hrev : truthy r.revision = none ∨
      ∃ rev, truthy r.revision = some rev ∧
        pyIsDigitStr rev = false ∧ pyIsAlphaStr rev = false)
    (hver : truthy r.version = some v)
    (hbad : ∃ p ∈ splitOnDot v.data, pyIntOpt p = none) :
    get_revision_score r = some 0 := by
  have hvs : versionScoreGo 0 (splitOnDot v.data) = none :=
    versionScoreGo_of_bad _ 0 hbad
  have hfb : versionFallback r = 0 := by
    unfold versionFallback versionScore
    rw [hver]
    simp only [hvs, Option.getD_none]
  unfold get_revision_score
  rcases hrev with h | ⟨rev, h, hd, ha⟩
  · rw [h, hfb]
  · rw [h]
    simp only [hd, ha, Bool.false_eq_true, if_false, hfb]

/-- Witness for the amended C8 theorem at the parsed stem `Game (v1..2)`. -/
theorem version_nonnumeric_rejects_whole_witness :
    truthy (parseStem "Game (v1..2)").revision = none ∧
    truthy (parseStem "Game (v1..2)").version = some "1..2" ∧
    (∃ p ∈ splitOnDot "1..2".data, pyIntOpt p = none) ∧
    get_revision_score (parseStem "Game (v1..2)") = some 0 :=
  ⟨by decide, by decide, by decide,
   version_nonnumeric_rejects_whole (parseStem "Game (v1..2)") "1..2"
     (Or.inl (by decide)) (by decide) (by decide)⟩

/-! ## Claim C10 -/

/-- Claim C10: keepers are not protected from later phases.  On the concrete
collection `romsChain`, the path kept by the first decision (the Phase-1
hash keeper `Game (USA).nes`) is exactly the path removed by the second
decision (it loses its Phase-2 name group), and every file of the `other`
name group (a bad Phase-2 keeper included, via its Phase-3 standalone
decision) is flagged for removal. -/
theorem keeper_not_protected :
    ∃ out, find_duplicates romsChain = some out ∧
      (out.get? 0).map Decision.keep = (out.get? 1).map Decision.remove ∧
      (out.get? 1).isSome = true ∧
      ∀ r ∈ romsChain, get_normalized_name r = "other" →
        ∃ d ∈ out, d.remove = r.path :=
  ⟨(find_duplicates romsChain).get (by decide), by decide, by decide⟩

/-! ## Claim C3: the no-match invariant theory -/

theorem NM_nil (op cl : Char) : NM op cl [] := trivial

theorem NM_cons_iff (op cl c : Char) (rest : List Char) :
    NM op cl (c :: rest) ↔ (c = op → FirstClose cl rest) ∧ NM op cl rest :=
  Iff.rfl

theorem FirstClose_of_append (cl : Char) (l s : List Char)
    (h : FirstClose cl (l ++ s)) : FirstClose cl l := by
  cases l with
  | nil => exact Or.inr (List.not_mem_nil cl)
  | cons d l2 =>
    rcases h with h | h
    · exact Or.inl h
    · exact Or.inr fun hm => h (List.mem_append_left _ hm)

theorem NM_append_right (op cl : Char) (l s : List Char) (h : NM op cl (l ++ s)) :
    NM op cl s := by
  induction l with
  | nil => exact h
  | cons c l2 ih => exact ih h.2

theorem NM_append_left (op cl : Char) (l s : List Char) (h : NM op cl (l ++ s)) :
    NM op cl l := by
  induction l with
  | nil => trivial
  | cons c l2 ih =>
    exact ⟨fun hc => FirstClose_of_append cl l2 s (h.1 hc), ih h.2⟩


theorem tagSubF_succ_ne (op cl c : Char) (f : Nat) (rest : List Char) (hc : c ≠ op) :
    tagSubF op cl (f + 1) (c :: rest) = c :: tagSubF op cl f rest := by
  simp only [tagSubF, hc, if_false]

theorem tagSubF_succ_fail (op cl : Char) (f : Nat) (rest : List Char)
    (h : rest.dropWhile (· != cl) = [] ∨ rest.takeWhile (· != cl) = []) :
    tagSubF op cl (f + 1) (op :: rest) = op :: tagSubF op cl f rest := by
  simp only [tagSubF, if_true]
  rcases h with h | h
  · rw [h]
  · rcases hd : rest.dropWhile (· != cl) with _ | ⟨d, r2⟩
    · rw [h]
    · rw [h]

theorem tagSubF_succ_hit (op cl : Char) (f : Nat) (rest r2 pre : List Char) (d q : Char)
    (hdrop : rest.dropWhile (· != cl) = d :: r2)
    (htake : rest.takeWhile (· != cl) = q :: pre) :
    tagSubF op cl (f + 1) (op :: rest) = tagSubF op cl f r2 := by
  simp only [tagSubF, if_true]
  rw [hdrop, htake]

theorem tagSubF_zero (op cl : Char) (s : List Char) : tagSubF op cl 0 s = s := by
  cases s with
  | nil => rfl
  | cons c rest => rfl

theorem mem_tagSubF (op cl : Char) :
    ∀ f s x, x ∈ tagSubF op cl f s → x ∈ s := by
  intro f
  induction f with
  | zero =>
    intro s x h
    rw [tagSubF_zero] at h
    exact h
  | succ f ih =>
    intro s x h
    cases s with
    | nil => exact absurd h (List.not_mem_nil x)
    | cons c rest =>
      by_cases hc : c = op
      · rw [hc] at h
        rcases hdrop : rest.dropWhile (· != cl) with _ | ⟨d, r2⟩
        · rw [tagSubF_succ_fail op cl f rest (Or.inl hdrop)] at h
          rcases List.mem_cons.1 h with rfl | hm
          · rw [hc]; exact List.mem_cons_self x rest
          · exact List.mem_cons_of_mem c (ih _ x hm)
        · rcases htake : rest.takeWhile (· != cl) with _ | ⟨q, pre⟩
          · rw [tagSubF_succ_fail op cl f rest (Or.inr htake)] at h
            rcases List.mem_cons.1 h with rfl | hm
            · rw [hc]; exact List.mem_cons_self x rest
            · exact List.mem_cons_of_mem c (ih _ x hm)
          · rw [tagSubF_succ_hit op cl f rest r2 pre d q hdrop htake] at h
            have hx : x ∈ rest := by
              have hr : rest.takeWhile (· != cl) ++ rest.dropWhile (· != cl) = rest :=
                List.takeWhile_append_dropWhile _ _
              rw [← hr, hdrop]
              exact List.mem_append_right _ (List.mem_cons_of_mem d (ih _ x h))
            exact List.mem_cons_of_mem c hx
      · rw [tagSubF_succ_ne op cl c f rest hc] at h
        rcases List.mem_cons.1 h with rfl | hm
        · exact List.mem_cons_self x rest
        · exact List.mem_cons_of_mem c (ih _ x hm)

theorem dropWhile_eq_nil_of_not_mem (cl : Char) (l : List Char) (h : cl ∉ l) :
    l.dropWhile (· != cl) = [] := by
  induction l with
  | nil => rfl
  | cons c l2 ih =>
    have hc : c ≠ cl := fun hcc => h (hcc ▸ List.mem_cons_self c l2)
    rw [List.dropWhile_cons]
    simp only [bne_iff_ne, ne_eq, hc, not_false_eq_true, if_true]
    exact ih fun hm => h (List.mem_cons_of_mem c hm)

theorem tagSubF_eq_self (op cl : Char) :
    ∀ f s, NM op cl s → tagSubF op cl f s = s := by
  intro f
  induction f with
  | zero => intro s _; exact tagSubF_zero op cl s
  | succ f ih =>
    intro s hNM
    cases s with
    | nil => rfl
    | cons c rest =>
      by_cases hc : c = op
      · rcases hNM.1 hc with hhd | hnm
        · cases rest with
          | nil => simp at hhd
          | cons d r2 =>
            have hd : d = cl := by simpa using hhd
            have htake : (d :: r2).takeWhile (· != cl) = [] := by
              rw [List.takeWhile_cons]
              simp [hd]
            rw [hc, tagSubF_succ_fail op cl f (d :: r2) (Or.inr htake), ih _ hNM.2]
        · have hdrop : rest.dropWhile (· != cl) = [] :=
            dropWhile_eq_nil_of_not_mem cl rest hnm
          rw [hc, tagSubF_succ_fail op cl f rest (Or.inl hdrop), ih _ hNM.2]
      · rw [tagSubF_succ_ne op cl c f rest hc, ih _ hNM.2]

theorem head_tagSubF (op cl c : Char) (f : Nat) (rest : List Char) (hc : c ≠ op) :
    ∃ t, tagSubF op cl f (c :: rest) = c :: t := by
  cases f with
  | zero => exact ⟨rest, tagSubF_zero op cl (c :: rest)⟩
  | succ f => exact ⟨tagSubF op cl f rest, tagSubF_succ_ne op cl c f rest hc⟩

theorem not_mem_of_dropWhile_nil (cl : Char) (l : List Char)
    (h : l.dropWhile (· != cl) = []) : cl ∉ l := by
  induction l with
  | nil => exact List.not_mem_nil cl
  | cons c l2 ih =>
    rw [List.dropWhile_cons] at h
    by_cases hc : (c != cl) = true
    · rw [if_pos hc] at h
      intro hm
      rcases List.mem_cons.1 hm with rfl | hm2
      · exact absurd rfl (bne_iff_ne.1 hc)
      · exact ih h hm2
    · rw [if_neg hc] at h
      exact absurd h (List.cons_ne_nil c l2)

theorem NM_tagSubF (op cl : Char) (hne : op ≠ cl) :
    ∀ f s, s.length ≤ f → NM op cl (tagSubF op cl f s) := by
  intro f
  induction f with
  | zero =>
    intro s hs
    have : s = [] := List.length_eq_zero.1 (Nat.le_zero.1 hs)
    subst this
    exact NM_nil op cl
  | succ f ih =>
    intro s hs
    cases s with
    | nil => exact NM_nil op cl
    | cons c rest =>
      have hlen : rest.length ≤ f := by
        simpa using Nat.succ_le_succ_iff.1 (by simpa using hs)
      by_cases hc : c = op
      · rw [hc]
        rcases hdrop : rest.dropWhile (· != cl) with _ | ⟨d, r2⟩
        · rw [tagSubF_succ_fail op cl f rest (Or.inl hdrop)]
          refine ⟨fun _ => Or.inr ?_, ih rest hlen⟩
          exact fun hm =>
            not_mem_of_dropWhile_nil cl rest hdrop (mem_tagSubF op cl f rest cl hm)
        · rcases htake : rest.takeWhile (· != cl) with _ | ⟨q, pre⟩
          · rw [tagSubF_succ_fail op cl f rest (Or.inr htake)]
            refine ⟨fun _ => ?_, ih rest hlen⟩
            cases rest with
            | nil => simp at hdrop
            | cons e r2b =>
              have he : e = cl := by
                rw [List.takeWhile_cons] at htake
                by_cases hb : (e != cl) = true
                · rw [if_pos hb] at htake
                  exact absurd htake (List.cons_ne_nil _ _)
                · simpa using hb
              rw [he]
              rcases head_tagSubF op cl cl f r2b (fun hh => hne hh.symm) with ⟨t, ht⟩
              rw [ht]
              exact Or.inl rfl
          · rw [tagSubF_succ_hit op cl f rest r2 pre d q hdrop htake]
            apply ih
            have hrlen : rest = (q :: pre) ++ d :: r2 := by
              rw [← htake, ← hdrop]
              exact (List.takeWhile_append_dropWhile _ _).symm
            have : rest.length = pre.length + r2.length + 2 := by
              rw [hrlen]; simp; omega
            omega
      · rw [tagSubF_succ_ne op cl c f rest hc]
        exact ⟨fun hco => absurd hco hc, ih rest hlen⟩

theorem NM_tagSubF_other (op cl op2 cl2 : Char) (h1 : op ≠ op2) (h2 : cl ≠ op2) :
    ∀ f s, NM op cl s → NM op cl (tagSubF op2 cl2 f s) := by
  intro f
  induction f with
  | zero =>
    intro s h
    rw [tagSubF_zero]
    exact h
  | succ f ih =>
    intro s hNM
    cases s with
    | nil => exact NM_nil op cl
    | cons c rest =>
      by_cases hc : c = op2
      · rw [hc]
        rcases hdrop : rest.dropWhile (· != cl2) with _ | ⟨d, r2⟩
        · rw [tagSubF_succ_fail op2 cl2 f rest (Or.inl hdrop)]
          exact ⟨fun hoo => absurd hoo h1.symm, ih rest hNM.2⟩
        · rcases htake : rest.takeWhile (· != cl2) with _ | ⟨q, pre⟩
          · rw [tagSubF_succ_fail op2 cl2 f rest (Or.inr htake)]
            exact ⟨fun hoo => absurd hoo h1.symm, ih rest hNM.2⟩
          · rw [tagSubF_succ_hit op2 cl2 f rest r2 pre d q hdrop htake]
            apply ih
            have hrlen : rest = (q :: pre) ++ d :: r2 := by
              rw [← htake, ← hdrop]
              exact (List.takeWhile_append_dropWhile _ _).symm
            have h3 : NM op cl (d :: r2) := by
              apply NM_append_right op cl (q :: pre)
              rw [← hrlen]
              exact hNM.2
            exact h3.2
      · rw [tagSubF_succ_ne op2 cl2 c f rest hc]
        refine ⟨fun hco => ?_, ih rest hNM.2⟩
        rcases hNM.1 hco with hhd | hnm
        · cases rest with
          | nil => simp at hhd
          | cons e r2b =>
            have he : e = cl := by simpa using hhd
            rw [he]
            rcases head_tagSubF op2 cl2 cl f r2b (fun hh => h2 hh) with ⟨t, ht⟩
            rw [ht]
            exact Or.inl rfl
        · exact Or.inr fun hm => hnm (mem_tagSubF op2 cl2 f rest cl hm)

theorem mem_collapseAux : ∀ (b : Bool) (s : List Char) (x : Char),
    x ∈ collapseWsAux b s → x ∈ s ∨ x = ' ' := by
  intro b s
  induction s generalizing b with
  | nil => intro x h; exact absurd h (List.not_mem_nil x)
  | cons c rest ih =>
    intro x h
    unfold collapseWsAux at h
    by_cases hws : isPyWs c = true
    · rw [if_pos hws] at h
      cases b with
      | true =>
        rw [if_pos rfl] at h
        rcases ih true x h with hm | hsp
        · exact Or.inl (List.mem_cons_of_mem c hm)
        · exact Or.inr hsp
      | false =>
        simp only [Bool.false_eq_true, if_false] at h
        rcases List.mem_cons.1 h with rfl | hm
        · exact Or.inr rfl
        · rcases ih true x hm with hm2 | hsp
          · exact Or.inl (List.mem_cons_of_mem c hm2)
          · exact Or.inr hsp
    · rw [if_neg hws] at h
      rcases List.mem_cons.1 h with rfl | hm
      · exact Or.inl (List.mem_cons_self x rest)
      · rcases ih false x hm with hm2 | hsp
        · exact Or.inl (List.mem_cons_of_mem c hm2)
        · exact Or.inr hsp

theorem NM_collapseAux (op cl : Char) (hop : isPyWs op = false) (hcl : isPyWs cl = false) :
    ∀ (s : List Char) (b : Bool), NM op cl s → NM op cl (collapseWsAux b s) := by
  have hop2 : op ≠ ' ' := fun h => by rw [h] at hop; simp [isPyWs] at hop
  have hcl2 : cl ≠ ' ' := fun h => by rw [h] at hcl; simp [isPyWs] at hcl
  intro s
  induction s with
  | nil => intro b _; exact NM_nil op cl
  | cons c rest ih =>
    intro b hNM
    unfold collapseWsAux
    by_cases hws : isPyWs c = true
    · rw [if_pos hws]
      cases b with
      | true => rw [if_pos rfl]; exact ih true hNM.2
      | false =>
        simp only [Bool.false_eq_true, if_false]
        exact ⟨fun hsp => absurd hsp.symm hop2, ih true hNM.2⟩
    · rw [if_neg hws]
      refine ⟨fun hco => ?_, ih false hNM.2⟩
      rcases hNM.1 hco with hhd | hnm
      · cases rest with
        | nil => simp at hhd
        | cons e r2 =>
          have he : e = cl := by simpa using hhd
          rw [he]
          unfold collapseWsAux
          rw [if_neg (by rw [hcl]; simp)]
          exact Or.inl rfl
      · refine Or.inr fun hm => ?_
        rcases mem_collapseAux false rest cl hm with hm2 | hsp
        · exact hnm hm2
        · exact hcl2 hsp

theorem headNotWs_collapseAux :
    ∀ (s : List Char) (d : Char), (collapseWsAux true s).head? = some d → isPyWs d = false := by
  intro s
  induction s with
  | nil => intro d h; simp [collapseWsAux] at h
  | cons c rest ih =>
    intro d h
    unfold collapseWsAux at h
    by_cases hws : isPyWs c = true
    · rw [if_pos hws, if_pos rfl] at h
      exact ih d h
    · rw [if_neg hws] at h
      have : c = d := by simpa using h
      rw [← this]
      simpa using hws

theorem WN_collapseAux : ∀ (s : List Char) (b : Bool), WN (collapseWsAux b s) := by
  intro s
  induction s with
  | nil => intro b; trivial
  | cons c rest ih =>
    intro b
    unfold collapseWsAux
    by_cases hws : isPyWs c = true
    · rw [if_pos hws]
      cases b with
      | true => rw [if_pos rfl]; exact ih true
      | false =>
        simp only [Bool.false_eq_true, if_false]
        exact ⟨fun _ => ⟨rfl, fun d hd => headNotWs_collapseAux rest d hd⟩, ih true⟩
    · rw [if_neg hws]
      exact ⟨fun hcw => absurd hcw hws, ih false⟩

theorem WN_append_right (l s : List Char) (h : WN (l ++ s)) : WN s := by
  induction l with
  | nil => exact h
  | cons c l2 ih => exact ih h.2

theorem WN_append_left (l s : List Char) (h : WN (l ++ s)) : WN l := by
  induction l with
  | nil => trivial
  | cons c l2 ih =>
    refine ⟨fun hws => ?_, ih h.2⟩
    obtain ⟨hc, hnext⟩ := h.1 hws
    refine ⟨hc, fun d hd => hnext d ?_⟩
    cases l2 with
    | nil => cases hd
    | cons e l3 => exact hd

theorem collapseAux_eq_self :
    ∀ (s : List Char) (b : Bool), WN s →
      (b = true → ∀ d, s.head? = some d → isPyWs d = false) →
      collapseWsAux b s = s := by
  intro s
  induction s with
  | nil => intro b _ _; rfl
  | cons c rest ih =>
    intro b hWN hb
    unfold collapseWsAux
    by_cases hws : isPyWs c = true
    · obtain ⟨hc, hnext⟩ := hWN.1 hws
      cases b with
      | true => exact absurd hws (by rw [hb rfl c rfl]; simp)
      | false =>
        rw [if_pos hws]
        simp only [Bool.false_eq_true, if_false]
        rw [hc] at hws ⊢
        rw [ih true hWN.2 (fun _ => hnext)]
    · rw [if_neg hws]
      rw [ih false hWN.2 (fun hf => absurd hf (by simp))]

theorem dropTrailWhile_append (p : Char → Bool) (s : List Char) :
    dropTrailWhile p s ++ (s.reverse.takeWhile p).reverse = s := by
  unfold dropTrailWhile
  calc (s.reverse.dropWhile p).reverse ++ (s.reverse.takeWhile p).reverse
      = (s.reverse.takeWhile p ++ s.reverse.dropWhile p).reverse := by
        rw [List.reverse_append]
    _ = s.reverse.reverse := by rw [List.takeWhile_append_dropWhile]
    _ = s := List.reverse_reverse s

theorem NM_dropWhile (op cl : Char) (p : Char → Bool) (s : List Char)
    (h : NM op cl s) : NM op cl (s.dropWhile p) := by
  apply NM_append_right op cl (s.takeWhile p)
  rw [List.takeWhile_append_dropWhile]
  exact h

theorem NM_dropTrailWhile (op cl : Char) (p : Char → Bool) (s : List Char)
    (h : NM op cl s) : NM op cl (dropTrailWhile p s) := by
  apply NM_append_left op cl _ (s.reverse.takeWhile p).reverse
  rw [dropTrailWhile_append]
  exact h

theorem NM_pyStrip (op cl : Char) (s : List Char) (h : NM op cl s) :
    NM op cl (pyStrip s) :=
  NM_dropTrailWhile op cl isPyWs _ (NM_dropWhile op cl isPyWs s h)

theorem WN_dropWhile (p : Char → Bool) (s : List Char) (h : WN s) :
    WN (s.dropWhile p) := by
  apply WN_append_right (s.takeWhile p)
  rw [List.takeWhile_append_dropWhile]
  exact h

theorem WN_dropTrailWhile (p : Char → Bool) (s : List Char) (h : WN s) :
    WN (dropTrailWhile p s) := by
  apply WN_append_left _ (s.reverse.takeWhile p).reverse
  rw [dropTrailWhile_append]
  exact h

theorem WN_pyStrip (s : List Char) (h : WN s) : WN (pyStrip s) :=
  WN_dropTrailWhile isPyWs _ (WN_dropWhile isPyWs s h)

theorem head_dropWhile (p : Char → Bool) (s : List Char) :
    ∀ d, (s.dropWhile p).head? = some d → p d = false := by
  induction s with
  | nil => intro d h; cases h
  | cons c rest ih =>
    intro d h
    rw [List.dropWhile_cons] at h
    by_cases hp : p c = true
    · rw [if_pos hp] at h
      exact ih d h
    · rw [if_neg hp] at h
      have : c = d := by simpa using h
      rw [← this]
      simpa using hp

theorem dropWhile_eq_self_of_head (p : Char → Bool) (s : List Char)
    (h : ∀ d, s.head? = some d → p d = false) : s.dropWhile p = s := by
  cases s with
  | nil => rfl
  | cons c rest =>
    rw [List.dropWhile_cons, if_neg]
    rw [h c rfl]
    simp

theorem getLast_dropTrailWhile (p : Char → Bool) (s : List Char) :
    ∀ d, (dropTrailWhile p s).getLast? = some d → p d = false := by
  intro d h
  unfold dropTrailWhile at h
  rw [List.getLast?_reverse] at h
  exact head_dropWhile p s.reverse d h

theorem dropTrailWhile_eq_self_of_last (p : Char → Bool) (s : List Char)
    (h : ∀ d, s.getLast? = some d → p d = false) : dropTrailWhile p s = s := by
  unfold dropTrailWhile
  rw [dropWhile_eq_self_of_head p s.reverse (fun d hd => h d (by
    rw [List.head?_reverse] at hd
    exact hd))]
  exact List.reverse_reverse s

theorem head_pyStrip (s : List Char) :
    ∀ d, (pyStrip s).head? = some d → isPyWs d = false := by
  intro d h
  unfold pyStrip at h
  cases hp : dropTrailWhile isPyWs (s.dropWhile isPyWs) with
  | nil => rw [hp] at h; cases h
  | cons x xs =>
    rw [hp] at h
    have hd : x = d := by simpa using h
    have happ := dropTrailWhile_append isPyWs (s.dropWhile isPyWs)
    rw [hp] at happ
    have hhead : (s.dropWhile isPyWs).head? = some x := by
      rw [← happ]
      rfl
    rw [← hd]
    exact head_dropWhile isPyWs s x hhead

theorem last_pyStrip (s : List Char) :
    ∀ d, (pyStrip s).getLast? = some d → isPyWs d = false := by
  intro d h
  exact getLast_dropTrailWhile isPyWs _ d h

theorem pyStrip_eq_self (s : List Char)
    (h1 : ∀ d, s.head? = some d → isPyWs d = false)
    (h2 : ∀ d, s.getLast? = some d → isPyWs d = false) : pyStrip s = s := by
  unfold pyStrip
  rw [dropWhile_eq_self_of_head isPyWs s h1]
  exact dropTrailWhile_eq_self_of_last isPyWs s h2

theorem pyStrip_idem (s : List Char) : pyStrip (pyStrip s) = pyStrip s :=
  pyStrip_eq_self (pyStrip s) (head_pyStrip s) (last_pyStrip s)

theorem tagSub_eq_self (op cl : Char) (s : List Char) (h : NM op cl s) :
    tagSub op cl s = s :=
  tagSubF_eq_self op cl s.length s h

theorem collapseWs_eq_self (s : List Char) (h : WN s) : collapseWs s = s :=
  collapseAux_eq_self s false h (fun hf => absurd hf (by simp))

set_option maxHeartbeats 2000000 in
theorem extractBaseL_fix (s : List Char)
    (h : ∀ d, (extractBaseL s).getLast? = some d → isSep d = false) :
    extractBaseL (extractBaseL s) = extractBaseL s := by
  have hNM1 : NM '(' ')' (tagSub '(' ')' s) :=
    NM_tagSubF '(' ')' (by decide) s.length s (Nat.le_refl _)
  have hNM2 : NM '(' ')' (tagSub '[' ']' (tagSub '(' ')' s)) :=
    NM_tagSubF_other '(' ')' '[' ']' (by decide) (by decide) _ _ hNM1
  have hNMb2 : NM '[' ']' (tagSub '[' ']' (tagSub '(' ')' s)) :=
    NM_tagSubF '[' ']' (by decide) _ _ (Nat.le_refl _)
  unfold extractBaseL at h ⊢
  set q := collapseWs (tagSub '[' ']' (tagSub '(' ')' s)) with hq
  have hNMq : NM '(' ')' q := by
    rw [hq]
    exact NM_collapseAux '(' ')' (by decide) (by decide) _ false hNM2
  have hNMbq : NM '[' ']' q := by
    rw [hq]
    exact NM_collapseAux '[' ']' (by decide) (by decide) _ false hNMb2
  have hWNq : WN q := by
    rw [hq]
    exact WN_collapseAux _ false
  set b := pyStrip (dropTrailWhile isSep (pyStrip q)) with hb
  have hNMb : NM '(' ')' b := by
    rw [hb]
    exact NM_pyStrip '(' ')' (dropTrailWhile isSep (pyStrip q))
      (NM_dropTrailWhile '(' ')' isSep (pyStrip q) (NM_pyStrip '(' ')' q hNMq))
  have hNMbB : NM '[' ']' b := by
    rw [hb]
    exact NM_pyStrip '[' ']' (dropTrailWhile isSep (pyStrip q))
      (NM_dropTrailWhile '[' ']' isSep (pyStrip q) (NM_pyStrip '[' ']' q hNMbq))
  have hWNb : WN b := by
    rw [hb]
    exact WN_pyStrip (dropTrailWhile isSep (pyStrip q))
      (WN_dropTrailWhile isSep (pyStrip q) (WN_pyStrip q hWNq))
  have e4 : pyStrip b = b := by
    rw [hb]
    exact pyStrip_idem _
  rw [tagSub_eq_self '(' ')' b hNMb, tagSub_eq_self '[' ']' b hNMbB,
    collapseWs_eq_self b hWNb, e4, dropTrailWhile_eq_self_of_last isSep b h, e4]

theorem applyParenTag_base (r : RomInfo) (t : String) :
    (applyParenTag r t).base_name = r.base_name := rfl

theorem applyBracketTag_base (r : RomInfo) (t : String) :
    (applyBracketTag r t).base_name = r.base_name := by
  unfold applyBracketTag
  dsimp only
  split
  · rfl
  · split
    · rfl
    · split
      · rfl
      · rfl

theorem foldl_paren_base (l : List String) :
    ∀ r : RomInfo, (l.foldl applyParenTag r).base_name = r.base_name := by
  induction l with
  | nil => intro r; rfl
  | cons t l2 ih => intro r; rw [List.foldl_cons, ih, applyParenTag_base]

theorem foldl_bracket_base (l : List String) :
    ∀ r : RomInfo, (l.foldl applyBracketTag r).base_name = r.base_name := by
  induction l with
  | nil => intro r; rfl
  | cons t l2 ih => intro r; rw [List.foldl_cons, ih, applyBracketTag_base]

theorem parseStem_base (stem : String) :
    (parseStem stem).base_name = ⟨extractBaseL stem.data⟩ := by
  unfold parseStem
  rw [foldl_bracket_base, foldl_paren_base]

/-- Claim C3 counterexample: base-name extraction is not idempotent.  The
stem `Game_ _` parses to base name `Game_` (the trailing-separator trim runs
before the final whitespace strip exposes a new trailing underscore), and
re-parsing `Game_` yields `Game`. -/
theorem extractBase_not_idempotent_counterexample :
    (parseStem "Game_ _").base_name = "Game_" ∧
    (parseStem (parseStem "Game_ _").base_name).base_name = "Game" ∧
    (parseStem (parseStem "Game_ _").base_name).base_name ≠
      (parseStem "Game_ _").base_name := by decide

/-- Claim C3 amended: base-name extraction is idempotent for every filename
stem whose extracted base name does not end in a hyphen or underscore (the
counterexample's only escape: the single trailing `[-_]+` trim can expose a
new trailing separator after the final strip).  Tag removal, whitespace
collapsing and stripping do reach a fixed point after one pass. -/
theorem extractBase_idempotent_of_no_trailing_sep (stem : String)
    (h1 : (parseStem stem).base_name.data.getLast? ≠ some '-')
    (h2 : (parseStem stem).base_name.data.getLast? ≠ some '_') :
    (parseStem (parseStem stem).base_name).base_name = (parseStem stem).base_name := by
  rw [parseStem_base] at h1 h2
  rw [parseStem_base, parseStem_base]
  have hlast : ∀ d, (extractBaseL stem.data).getLast? = some d → isSep d = false := by
    intro d hd
    by_contra hsep
    have hsep2 : isSep d = true := by simpa using hsep
    have : d = '-' ∨ d = '_' := by simpa [isSep] using hsep2
    rcases this with rfl | rfl
    · exact h1 hd
    · exact h2 hd
  exact congrArg String.mk (extractBaseL_fix stem.data hlast)

/-- Witness for the amended C3 theorem at the stem `Game (USA) [!]` (base
name `Game`). -/
theorem extractBase_idempotent_witness :
    (parseStem "Game (USA) [!]").base_name.data.getLast? ≠ some '-' ∧
    (parseStem "Game (USA) [!]").base_name.data.getLast? ≠ some '_' ∧
    (parseStem (parseStem "Game (USA) [!]").base_name).base_name =
      (parseStem "Game (USA) [!]").base_name :=
  ⟨by decide, by decide,
   extractBase_idempotent_of_no_trailing_sep "Game (USA) [!]" (by decide) (by decide)⟩

/-! ## Claim C9: parser shape and grouping-key injectivity -/

theorem mem_takeWhile_prop (p : Char → Bool) (l : List Char) :
    ∀ x ∈ l.takeWhile p, p x = true := by
  induction l with
  | nil => intro x hx; cases hx
  | cons c rest ih =>
    intro x hx
    rw [List.takeWhile_cons] at hx
    by_cases hp : p c = true
    · rw [if_pos hp] at hx
      rcases List.mem_cons.1 hx with rfl | hm
      · exact hp
      · exact ih x hm
    · rw [if_neg hp] at hx
      cases hx

theorem takeWhile_append_of_all (p : Char → Bool) (a t : List Char)
    (ha : ∀ c ∈ a, p c = true)
    (ht : ∀ d, t.head? = some d → p d = false) :
    (a ++ t).takeWhile p = a := by
  induction a with
  | nil =>
    cases t with
    | nil => rfl
    | cons d t2 =>
      simp only [List.nil_append, List.takeWhile_cons, ht d rfl]
      simp
  | cons c a2 ih =>
    simp only [List.cons_append, List.takeWhile_cons,
      ha c (List.mem_cons_self c a2), if_true]
    rw [ih (fun x hx => ha x (List.mem_cons_of_mem c hx))]

theorem digits_append_inj (a1 a2 t1 t2 : List Char)
    (ha1 : ∀ c ∈ a1, isDigitCh c = true) (ha2 : ∀ c ∈ a2, isDigitCh c = true)
    (ht1 : ∀ d, t1.head? = some d → isDigitCh d = false)
    (ht2 : ∀ d, t2.head? = some d → isDigitCh d = false)
    (h : a1 ++ t1 = a2 ++ t2) : a1 = a2 ∧ t1 = t2 := by
  have h1 : (a1 ++ t1).takeWhile isDigitCh = a1 :=
    takeWhile_append_of_all isDigitCh a1 t1 ha1 ht1
  have h2 : (a2 ++ t2).takeWhile isDigitCh = a2 :=
    takeWhile_append_of_all isDigitCh a2 t2 ha2 ht2
  have ha : a1 = a2 := by rw [← h1, ← h2, h]
  refine ⟨ha, ?_⟩
  apply List.append_cancel_left
  rw [← ha] at h
  exact h

theorem matchDisc_shape (s g : List Char) (h : matchDisc s = some g) :
    g ≠ [] ∧ ∀ c ∈ g, isDigitCh c = true := by
  unfold matchDisc at h
  split at h
  · cases h
  · split at h
    · cases h
    · split at h
      · dsimp only at h
        split at h
        · cases h
        · rename_i he
          have hg := Option.some.inj h
          constructor
          · intro hnil
            rw [hg, hnil] at he
            exact he rfl
          · intro x hx
            rw [← hg] at hx
            exact mem_takeWhile_prop isDigitCh _ x hx
      · cases h

theorem applyParenTag_disc (r : RomInfo) (t : String) :
    (applyParenTag r t).disc_number = r.disc_number ∨
    ∃ g, matchDisc (pyStripStr t).data = some g ∧
      (applyParenTag r t).disc_number = some ⟨g⟩ := by
  unfold applyParenTag
  dsimp only
  cases hm : matchDisc (pyStripStr t).data with
  | none => left; rfl
  | some g => right; exact ⟨g, rfl, rfl⟩

theorem applyBracketTag_disc (r : RomInfo) (t : String) :
    (applyBracketTag r t).disc_number = r.disc_number := by
  unfold applyBracketTag
  dsimp only
  split
  · rfl
  · split
    · rfl
    · split
      · rfl
      · rfl

theorem foldl_paren_disc (l : List String) :
    ∀ r : RomInfo,
      (∀ d, r.disc_number = some d → d.data ≠ [] ∧ ∀ c ∈ d.data, isDigitCh c = true) →
      ∀ d, (l.foldl applyParenTag r).disc_number = some d →
        d.data ≠ [] ∧ ∀ c ∈ d.data, isDigitCh c = true := by
  induction l with
  | nil => intro r hr; exact hr
  | cons t l2 ih =>
    intro r hr
    rw [List.foldl_cons]
    apply ih
    intro d hd
    rcases applyParenTag_disc r t with he | ⟨g, hg, he⟩
    · rw [he] at hd
      exact hr d hd
    · rw [he] at hd
      have hdg : (⟨g⟩ : String) = d := Option.some.inj hd
      rcases matchDisc_shape _ g hg with ⟨hne, hdig⟩
      rw [← hdg]
      exact ⟨hne, hdig⟩

theorem foldl_bracket_disc (l : List String) :
    ∀ r : RomInfo, (l.foldl applyBracketTag r).disc_number = r.disc_number := by
  induction l with
  | nil => intro r; rfl
  | cons t l2 ih => intro r; rw [List.foldl_cons, ih, applyBracketTag_disc]

theorem parseStem_disc_shape (f : String) :
    ∀ d, (parseStem f).disc_number = some d →
      d.data ≠ [] ∧ ∀ c ∈ d.data, isDigitCh c = true := by
  intro d hd
  unfold parseStem at hd
  dsimp only at hd
  rw [foldl_bracket_disc] at hd
  exact foldl_paren_disc _ _ (fun d2 hd2 => by cases hd2) d hd

theorem assocFind_cons {β : Type} (k2 : String) (vs : β) (rest : List (String × β))
    (k' : String) :
    assocFind ((k2, vs) :: rest) k' = if k2 = k' then some vs else assocFind rest k' := by
  unfold assocFind
  by_cases h : k2 = k'
  · rw [List.find?_cons_of_pos _ (by simpa using h), if_pos h]
    rfl
  · rw [List.find?_cons_of_neg _ (by simpa using h), if_neg h]

theorem assocFind_insertAssoc {β : Type} (m : List (String × List β)) (k k' : String)
    (v : β) :
    assocFind (insertAssoc m k v) k' =
      if k = k' then some ((assocFind m k).getD [] ++ [v]) else assocFind m k' := by
  induction m with
  | nil =>
    show assocFind [(k, [v])] k' = _
    rw [assocFind_cons]
    by_cases h : k = k'
    · rw [if_pos h, if_pos h]
      rfl
    · rw [if_neg h, if_neg h]
  | cons kv rest ih =>
    rcases kv with ⟨k2, vs⟩
    by_cases h2 : k2 = k
    · show assocFind (if k2 = k then (k2, vs ++ [v]) :: rest else _) k' = _
      rw [if_pos h2, assocFind_cons]
      by_cases h3 : k2 = k'
      · have h4 : k = k' := h2 ▸ h3
        rw [if_pos h3, if_pos h4, assocFind_cons, if_pos h2]
        rfl
      · have h4 : k ≠ k' := fun hkk => h3 (h2.symm ▸ hkk)
        rw [if_neg h3, if_neg h4, assocFind_cons, if_neg h3]
    · show assocFind (if k2 = k then _ else (k2, vs) :: insertAssoc rest k v) k' = _
      rw [if_neg h2, assocFind_cons, ih]
      by_cases h3 : k2 = k'
      · have h4 : k ≠ k' := fun hkk => h2 (h3.trans hkk.symm)
        rw [if_pos h3, if_neg h4, assocFind_cons, if_pos h3]
      · by_cases h4 : k = k'
        · rw [if_neg h3, if_pos h4, if_pos h4, assocFind_cons,
            if_neg (fun hk => h3 (hk.trans h4))]
        · rw [if_neg h3, if_neg h4, if_neg h4, assocFind_cons, if_neg h3]

theorem head_sideLit_append (l : List Char) :
    ∀ d, (sideLit ++ l).head? = some d → isDigitCh d = false := by
  intro d hd
  have h2 : some ' ' = some d := hd
  have h3 : ' ' = d := Option.some.inj h2
  rw [← h3]
  rfl

theorem mkSuffix_inj (d1 d2 s1 s2 : Option (List Char))
    (hd1 : ∀ l, d1 = some l → ∀ c ∈ l, isDigitCh c = true)
    (hd2 : ∀ l, d2 = some l → ∀ c ∈ l, isDigitCh c = true)
    (h : mkSuffix d1 s1 = mkSuffix d2 s2) : d1 = d2 ∧ s1 = s2 := by
  cases d1 with
  | none =>
    cases d2 with
    | none =>
      refine ⟨rfl, ?_⟩
      cases s1 with
      | none =>
        cases s2 with
        | none => rfl
        | some l2 => simp [mkSuffix, sideLit] at h
      | some l1 =>
        cases s2 with
        | none => simp [mkSuffix, sideLit] at h
        | some l2 =>
          simp only [mkSuffix, List.nil_append] at h
          rw [List.append_cancel_left h]
    | some l2 =>
      cases s1 with
      | none => simp [mkSuffix, discLit] at h
      | some l1 => simp [mkSuffix, discLit, sideLit] at h
  | some l1 =>
    cases d2 with
    | none =>
      cases s2 with
      | none => simp [mkSuffix, discLit] at h
      | some l2 => simp [mkSuffix, discLit, sideLit] at h
    | some l2 =>
      have hdig1 := hd1 l1 rfl
      have hdig2 := hd2 l2 rfl
      cases s1 with
      | none =>
        cases s2 with
        | none =>
          simp only [mkSuffix, List.append_nil] at h
          rw [List.append_cancel_left h]
          exact ⟨rfl, rfl⟩
        | some l2s =>
          simp only [mkSuffix, List.append_nil, List.append_assoc] at h
          have h2 := List.append_cancel_left h
          rcases digits_append_inj l1 l2 [] (sideLit ++ l2s) hdig1 hdig2
            (fun d hd => by cases hd) (head_sideLit_append l2s)
            (by simpa using h2) with ⟨_, hemp⟩
          exact absurd hemp.symm (by simp [sideLit])
      | some l1s =>
        cases s2 with
        | none =>
          simp only [mkSuffix, List.append_nil, List.append_assoc] at h
          have h2 := List.append_cancel_left h
          rcases digits_append_inj l1 l2 (sideLit ++ l1s) [] hdig1 hdig2
            (head_sideLit_append l1s) (fun d hd => by cases hd)
            (by simpa using h2) with ⟨_, hemp⟩
          exact absurd hemp (by simp [sideLit])
        | some l2s =>
          simp only [mkSuffix, List.append_assoc] at h
          have h2 := List.append_cancel_left h
          rcases digits_append_inj l1 l2 (sideLit ++ l1s) (sideLit ++ l2s) hdig1 hdig2
            (head_sideLit_append l1s) (head_sideLit_append l2s) h2 with ⟨hl, ht⟩
          have hs := List.append_cancel_left ht
          rw [hl, hs]
          exact ⟨rfl, rfl⟩

theorem matchSide_shape (s g : List Char) (h : matchSide s = some g) : g ≠ [] := by
  unfold matchSide at h
  split at h
  · cases h
  · dsimp only at h
    split at h
    · cases h
    · rename_i he
      have hg := Option.some.inj h
      intro hnil
      rw [hg, hnil] at he
      exact he rfl

theorem applyParenTag_side (r : RomInfo) (t : String) :
    (applyParenTag r t).side_number = r.side_number ∨
    ∃ g, matchSide (pyStripStr t).data = some g ∧
      (applyParenTag r t).side_number = some ⟨g⟩ := by
  unfold applyParenTag
  dsimp only
  cases hm : matchSide (pyStripStr t).data with
  | none => left; rfl
  | some g => right; exact ⟨g, rfl, rfl⟩

theorem applyBracketTag_side (r : RomInfo) (t : String) :
    (applyBracketTag r t).side_number = r.side_number := by
  unfold applyBracketTag
  dsimp only
  split
  · rfl
  · split
    · rfl
    · split
      · rfl
      · rfl

theorem foldl_paren_side (l : List String) :
    ∀ r : RomInfo,
      (∀ d, r.side_number = some d → d.data ≠ []) →
      ∀ d, (l.foldl applyParenTag r).side_number = some d → d.data ≠ [] := by
  induction l with
  | nil => intro r hr; exact hr
  | cons t l2 ih =>
    intro r hr
    rw [List.foldl_cons]
    apply ih
    intro d hd
    rcases applyParenTag_side r t with he | ⟨g, hg, he⟩
    · rw [he] at hd
      exact hr d hd
    · rw [he] at hd
      have hdg : (⟨g⟩ : String) = d := Option.some.inj hd
      rw [← hdg]
      exact matchSide_shape _ g hg

theorem foldl_bracket_side (l : List String) :
    ∀ r : RomInfo, (l.foldl applyBracketTag r).side_number = r.side_number := by
  induction l with
  | nil => intro r; rfl
  | cons t l2 ih => intro r; rw [List.foldl_cons, ih, applyBracketTag_side]

theorem parseStem_side_shape (f : String) :
    ∀ d, (parseStem f).side_number = some d → d.data ≠ [] := by
  intro d hd
  unfold parseStem at hd
  dsimp only at hd
  rw [foldl_bracket_side] at hd
  exact foldl_paren_side _ _ (fun d2 hd2 => by cases hd2) d hd

theorem truthy_parse_disc (f : String) :
    truthy (parseStem f).disc_number = (parseStem f).disc_number := by
  cases hd : (parseStem f).disc_number with
  | none => rfl
  | some d =>
    have hne := (parseStem_disc_shape f d hd).1
    unfold truthy
    show (if d.data = [] then none else some d) = some d
    rw [if_neg hne]

theorem truthy_parse_side (f : String) :
    truthy (parseStem f).side_number = (parseStem f).side_number := by
  cases hd : (parseStem f).side_number with
  | none => rfl
  | some d =>
    have hne := parseStem_side_shape f d hd
    unfold truthy
    show (if d.data = [] then none else some d) = some d
    rw [if_neg hne]

theorem norm_decomp (r : RomInfo) :
    (get_normalized_name r).data =
      cleanBase r.base_name ++
        mkSuffix ((truthy r.disc_number).map String.data)
          ((truthy r.side_number).map String.data) := by
  unfold get_normalized_name cleanBase mkSuffix
  rcases hd : truthy r.disc_number with _ | d <;>
    rcases hs : truthy r.side_number with _ | s2 <;>
      simp [discLit, sideLit, List.append_assoc]

theorem mem_insertAssoc {β : Type} (inner : List (String × List β)) (k : String) (v : β)
    (k2 : String) (g2 : List β) (h : (k2, g2) ∈ insertAssoc inner k v) :
    (k2, g2) ∈ inner ∨
      (k2 = k ∧ (g2 = [v] ∨ ∃ g, (k, g) ∈ inner ∧ g2 = g ++ [v])) := by
  induction inner with
  | nil =>
    unfold insertAssoc at h
    have h2 : k2 = k ∧ g2 = [v] := by simpa using h
    exact Or.inr ⟨h2.1, Or.inl h2.2⟩
  | cons kv rest ih =>
    rcases kv with ⟨k3, vs⟩
    by_cases h3 : k3 = k
    · rw [show insertAssoc ((k3, vs) :: rest) k v = (k3, vs ++ [v]) :: rest from by
        unfold insertAssoc; rw [if_pos h3]] at h
      rcases List.mem_cons.1 h with he | hm
      · have hk2 : k2 = k3 ∧ g2 = vs ++ [v] := by simpa using he
        refine Or.inr ⟨hk2.1.trans h3, Or.inr ⟨vs, ?_, hk2.2⟩⟩
        rw [← h3]
        exact List.mem_cons_self _ _
      · exact Or.inl (List.mem_cons_of_mem _ hm)
    · rw [show insertAssoc ((k3, vs) :: rest) k v = (k3, vs) :: insertAssoc rest k v from by
        rw [insertAssoc]; rw [if_neg h3]] at h
      rcases List.mem_cons.1 h with he | hm
      · left
        rw [he]
        exact List.mem_cons_self _ _
      · rcases ih hm with h1 | ⟨hk, hrest⟩
        · exact Or.inl (List.mem_cons_of_mem _ h1)
        · refine Or.inr ⟨hk, ?_⟩
          rcases hrest with h4 | ⟨g, hgm, hge⟩
          · exact Or.inl h4
          · exact Or.inr ⟨g, List.mem_cons_of_mem _ hgm, hge⟩

theorem mem_insertAssoc2 (m : List (String × List (String × List RomInfo)))
    (p k : String) (v : RomInfo) (p2 : String) (inner2 : List (String × List RomInfo))
    (h : (p2, inner2) ∈ insertAssoc2 m p k v) :
    (p2, inner2) ∈ m ∨
      (p2 = p ∧ (inner2 = [(k, [v])] ∨
        ∃ inner, (p, inner) ∈ m ∧ inner2 = insertAssoc inner k v)) := by
  induction m with
  | nil =>
    have h2 : p2 = p ∧ inner2 = [(k, [v])] := by
      unfold insertAssoc2 at h
      simpa using h
    exact Or.inr ⟨h2.1, Or.inl h2.2⟩
  | cons kv rest ih =>
    rcases kv with ⟨p3, g3⟩
    by_cases h3 : p3 = p
    · rw [show insertAssoc2 ((p3, g3) :: rest) p k v = (p3, insertAssoc g3 k v) :: rest from by
        unfold insertAssoc2; rw [if_pos h3]] at h
      rcases List.mem_cons.1 h with he | hm
      · have hk2 : p2 = p3 ∧ inner2 = insertAssoc g3 k v := by simpa using he
        refine Or.inr ⟨hk2.1.trans h3, Or.inr ⟨g3, ?_, hk2.2⟩⟩
        rw [← h3]
        exact List.mem_cons_self _ _
      · exact Or.inl (List.mem_cons_of_mem _ hm)
    · rw [show insertAssoc2 ((p3, g3) :: rest) p k v = (p3, g3) :: insertAssoc2 rest p k v from by
        rw [insertAssoc2]; rw [if_neg h3]] at h
      rcases List.mem_cons.1 h with he | hm
      · left
        rw [he]
        exact List.mem_cons_self _ _
      · rcases ih hm with h1 | ⟨hp, hrest⟩
        · exact Or.inl (List.mem_cons_of_mem _ h1)
        · refine Or.inr ⟨hp, ?_⟩
          rcases hrest with h4 | ⟨inner, him, hie⟩
          · exact Or.inl h4
          · exact Or.inr ⟨inner, List.mem_cons_of_mem _ him, hie⟩

theorem assocFind_mem {β : Type} (m : List (String × β)) (k : String) (v : β)
    (h : assocFind m k = some v) : (k, v) ∈ m := by
  unfold assocFind at h
  cases hf : m.find? (fun kv => kv.1 = k) with
  | none => rw [hf] at h; cases h
  | some kv =>
    rw [hf] at h
    have hm := List.mem_of_find?_eq_some hf
    have hp := List.find?_some hf
    have hk : kv.1 = k := by simpa using hp
    have hv : kv.2 = v := Option.some.inj h
    rcases kv with ⟨a, b⟩
    simp only at hk hv
    rw [← hk, ← hv]
    exact hm

theorem indexByName_fold_good (roms : List RomInfo) :
    ∀ (m : List (String × List (String × List RomInfo))),
      (∀ p inner, (p, inner) ∈ m → ∀ k g2, (k, g2) ∈ inner →
        ∀ r ∈ g2, r.platform = p ∧ get_normalized_name r = k) →
      ∀ p inner,
        (p, inner) ∈
          roms.foldl (fun m2 r => insertAssoc2 m2 r.platform (get_normalized_name r) r) m →
        ∀ k g2, (k, g2) ∈ inner → ∀ r ∈ g2, r.platform = p ∧ get_normalized_name r = k := by
  induction roms with
  | nil => intro m hm; exact hm
  | cons r0 rest ih =>
    intro m hm
    rw [List.foldl_cons]
    apply ih
    intro p inner hin k g2 hg2 r hr
    rcases mem_insertAssoc2 m r0.platform (get_normalized_name r0) r0 p inner hin with
      hold | ⟨hp, hcase⟩
    · exact hm p inner hold k g2 hg2 r hr
    · rcases hcase with hsing | ⟨inner0, hin0, hins⟩
      · rw [hsing] at hg2
        have hkg : k = get_normalized_name r0 ∧ g2 = [r0] := by simpa using hg2
        rw [hkg.2] at hr
        have : r = r0 := by simpa using hr
        rw [this, hp, hkg.1]
        exact ⟨rfl, rfl⟩
      · rw [hins] at hg2
        rcases mem_insertAssoc inner0 (get_normalized_name r0) r0 k g2 hg2 with
          hold2 | ⟨hk, hcase2⟩
        · have := hm r0.platform inner0 hin0 k g2 hold2 r hr
          rw [hp]
          exact this
        · rcases hcase2 with hg | ⟨g, hgm, hge⟩
          · rw [hg] at hr
            have : r = r0 := by simpa using hr
            rw [this, hp, hk]
            exact ⟨rfl, rfl⟩
          · rw [hge] at hr
            rcases List.mem_append.1 hr with hrg | hrv
            · have := hm r0.platform inner0 hin0 (get_normalized_name r0) g hgm r hrg
              rw [hp, hk]
              exact this
            · have : r = r0 := by simpa using hrv
              rw [this, hp, hk]
              exact ⟨rfl, rfl⟩

theorem lookupNameGroup_sound (roms : List RomInfo) (plat nm : String)
    (grp : List RomInfo) (hg : lookupNameGroup roms plat nm = some grp) :
    ∀ r ∈ grp, r.platform = plat ∧ get_normalized_name r = nm := by
  intro r hr
  unfold lookupNameGroup at hg
  cases hf : assocFind (indexByName roms) plat with
  | none => rw [hf] at hg; cases hg
  | some inner =>
    rw [hf] at hg
    have h1 := assocFind_mem _ _ _ hf
    have h2 := assocFind_mem inner nm grp hg
    exact indexByName_fold_good roms []
      (fun p i hi => absurd hi (List.not_mem_nil _)) plat inner h1 nm grp h2 r hr

theorem mkRomInfo_base_name (parent stem ext : String) (size : Nat) (md5 : Option String) :
    (mkRomInfo parent stem ext size md5).base_name = (parseStem stem).base_name := rfl

theorem mkRomInfo_disc (parent stem ext : String) (size : Nat) (md5 : Option String) :
    (mkRomInfo parent stem ext size md5).disc_number = (parseStem stem).disc_number := rfl

theorem mkRomInfo_side (parent stem ext : String) (size : Nat) (md5 : Option String) :
    (mkRomInfo parent stem ext size md5).side_number = (parseStem stem).side_number := rfl

theorem option_map_data_inj (a b : Option String)
    (h : a.map String.data = b.map String.data) : a = b := by
  cases a with
  | none =>
    cases b with
    | none => rfl
    | some t => cases h
  | some s =>
    cases b with
    | none => cases h
    | some t =>
      rcases s with ⟨l⟩
      rcases t with ⟨l2⟩
      have h2 : l = l2 := Option.some.inj h
      rw [h2]

/-- C9: two files parsed from stems with the same extracted base name (on any
platforms) whose parsed disc numbers differ, or whose parsed side numbers
differ, have different normalized names, and no (platform, name) group of the
`by_name` index ever contains both, so the resolver never compares them. -/
theorem disc_side_isolation
    (p1 s1 e1 p2 s2 e2 : String) (sz1 sz2 : Nat) (m1 m2 : Option String)
    (r1 r2 : RomInfo)
    (hr1 : r1 = mkRomInfo p1 s1 e1 sz1 m1)
    (hr2 : r2 = mkRomInfo p2 s2 e2 sz2 m2)
    (hbase : r1.base_name = r2.base_name)
    (hdiff : r1.disc_number ≠ r2.disc_number ∨ r1.side_number ≠ r2.side_number) :
    get_normalized_name r1 ≠ get_normalized_name r2 ∧
      ∀ (roms : List RomInfo) (plat nm : String) (grp : List RomInfo),
        lookupNameGroup roms plat nm = some grp → ¬(r1 ∈ grp ∧ r2 ∈ grp) := by
  subst hr1
  subst hr2
  rw [mkRomInfo_base_name, mkRomInfo_base_name] at hbase
  have hdig1 : ∀ l, (parseStem s1).disc_number.map String.data = some l →
      ∀ c ∈ l, isDigitCh c = true := by
    intro l hl c hc
    cases hdn : (parseStem s1).disc_number with
    | none => rw [hdn] at hl; cases hl
    | some d =>
      rw [hdn] at hl
      have hdl : d.data = l := Option.some.inj hl
      rw [← hdl] at hc
      exact (parseStem_disc_shape s1 d hdn).2 c hc
  have hdig2 : ∀ l, (parseStem s2).disc_number.map String.data = some l →
      ∀ c ∈ l, isDigitCh c = true := by
    intro l hl c hc
    cases hdn : (parseStem s2).disc_number with
    | none => rw [hdn] at hl; cases hl
    | some d =>
      rw [hdn] at hl
      have hdl : d.data = l := Option.some.inj hl
      rw [← hdl] at hc
      exact (parseStem_disc_shape s2 d hdn).2 c hc
  have hne : get_normalized_name (mkRomInfo p1 s1 e1 sz1 m1) ≠
      get_normalized_name (mkRomInfo p2 s2 e2 sz2 m2) := by
    intro he
    have hdata := congrArg String.data he
    rw [norm_decomp, norm_decomp, mkRomInfo_base_name, mkRomInfo_base_name,
      mkRomInfo_disc, mkRomInfo_disc, mkRomInfo_side, mkRomInfo_side,
      truthy_parse_disc, truthy_parse_disc, truthy_parse_side, truthy_parse_side,
      hbase] at hdata
    have hsuf := List.append_cancel_left hdata
    have hinj := mkSuffix_inj _ _ _ _ hdig1 hdig2 hsuf
    have hdeq : (parseStem s1).disc_number = (parseStem s2).disc_number :=
      option_map_data_inj _ _ hinj.1
    have hseq : (parseStem s1).side_number = (parseStem s2).side_number :=
      option_map_data_inj _ _ hinj.2
    rcases hdiff with h | h
    · exact h hdeq
    · exact h hseq
  refine ⟨hne, ?_⟩
  intro roms plat nm grp hg hmem
  have e1 := (lookupNameGroup_sound roms plat nm grp hg _ hmem.1).2
  have e2 := (lookupNameGroup_sound roms plat nm grp hg _ hmem.2).2
  exact hne (e1.trans e2.symm)

/-- Witness for C9: `Game (Disc 1).nes` vs `Game (Disc 2).nes` on platform
`NES` share the base name `Game` but differ in disc number, so their
normalized names differ and no name group holds both. -/
theorem disc_side_isolation_witness :
    get_normalized_name (mkRomInfo "NES" "Game (Disc 1)" ".nes" 10 (some "h1")) ≠
      get_normalized_name (mkRomInfo "NES" "Game (Disc 2)" ".nes" 10 (some "h2")) ∧
      ∀ (roms : List RomInfo) (plat nm : String) (grp : List RomInfo),
        lookupNameGroup roms plat nm = some grp →
        ¬(mkRomInfo "NES" "Game (Disc 1)" ".nes" 10 (some "h1") ∈ grp ∧
          mkRomInfo "NES" "Game (Disc 2)" ".nes" 10 (some "h2") ∈ grp) :=
  disc_side_isolation "NES" "Game (Disc 1)" ".nes" "NES" "Game (Disc 2)" ".nes"
    10 10 (some "h1") (some "h2") _ _ rfl rfl (by decide) (Or.inl (by decide))

theorem EmitsOK_nil (proc : List String) : EmitsOK proc [] proc :=
  ⟨List.nodup_nil, fun d hd => absurd hd (List.not_mem_nil d),
   fun _ hx => hx, fun d hd => absurd hd (List.not_mem_nil d)⟩

theorem EmitsOK_append (p p2 p3 : List String) (ds ds2 : List Decision)
    (h1 : EmitsOK p ds p2) (h2 : EmitsOK p2 ds2 p3) : EmitsOK p (ds ++ ds2) p3 := by
  obtain ⟨n1, f1, g1, m1⟩ := h1
  obtain ⟨n2, f2, g2, m2⟩ := h2
  refine ⟨?_, ?_, ?_, ?_⟩
  · rw [List.map_append, List.nodup_append]
    refine ⟨n1, n2, ?_⟩
    intro a ha hb
    rcases List.mem_map.1 ha with ⟨d, hd, hda⟩
    rcases List.mem_map.1 hb with ⟨d2, hd2, hdb⟩
    exact f2 d2 hd2 (by rw [hdb, ← hda]; exact m1 d hd)
  · intro d hd
    rcases List.mem_append.1 hd with hm | hm
    · exact f1 d hm
    · exact fun hp => f2 d hm (g1 _ hp)
  · intro x hx
    exact g2 x (g1 x hx)
  · intro d hd
    rcases List.mem_append.1 hd with hm | hm
    · exact g2 _ (m1 d hm)
    · exact m2 d hm

theorem EmitsOK_cons (proc p2 : List String) (ds : List Decision) (d : Decision)
    (hdp : d.remove ∉ proc) (h : EmitsOK (d.remove :: proc) ds p2) :
    EmitsOK proc (d :: ds) p2 := by
  obtain ⟨n1, f1, g1, m1⟩ := h
  refine ⟨?_, ?_, ?_, ?_⟩
  · rw [List.map_cons]
    refine List.nodup_cons.2 ⟨?_, n1⟩
    intro hmem
    rcases List.mem_map.1 hmem with ⟨d2, hd2, hda⟩
    exact f1 d2 hd2 (by rw [hda]; exact List.mem_cons_self _ _)
  · intro d2 hd2
    rcases List.mem_cons.1 hd2 with he | hm
    · rw [he]; exact hdp
    · exact fun hdp2 => f1 d2 hm (List.mem_cons_of_mem _ hdp2)
  · intro x hx
    exact g1 x (List.mem_cons_of_mem _ hx)
  · intro d2 hd2
    rcases List.mem_cons.1 hd2 with he | hm
    · rw [he]
      exact g1 d.remove (List.mem_cons_self _ _)
    · exact m1 d2 hm

theorem emitExact_ok (k : RomInfo) (rs : List RomInfo) :
    ∀ proc, EmitsOK proc (emitExact k rs proc).1 (emitExact k rs proc).2 := by
  induction rs with
  | nil => intro proc; exact EmitsOK_nil proc
  | cons r rs ih =>
    intro proc
    by_cases hp : r.path ∈ proc
    · rw [show emitExact k (r :: rs) proc = emitExact k rs proc from by
        rw [emitExact, if_pos hp]]
      exact ih proc
    · rw [show emitExact k (r :: rs) proc =
        ({ platform := r.platform, remove := r.path, keep := k.path,
           reason := exactReason, size := r.size } :: (emitExact k rs (r.path :: proc)).1,
         (emitExact k rs (r.path :: proc)).2) from by
        rw [emitExact, if_neg hp]]
      exact EmitsOK_cons proc _ _ _ hp (ih (r.path :: proc))

theorem phase1_ok (buckets : List (String × List RomInfo)) :
    ∀ proc ds proc2, phase1 buckets proc = some (ds, proc2) → EmitsOK proc ds proc2 := by
  induction buckets with
  | nil =>
    intro proc ds proc2 h
    rw [phase1] at h
    injection h with h2
    injection h2 with h3 h4
    subst h3
    subst h4
    exact EmitsOK_nil proc
  | cons b rest ih =>
    intro proc ds proc2 h
    rcases b with ⟨hsh, roms⟩
    rw [phase1] at h
    by_cases hl : 1 < roms.length
    · rw [if_pos hl] at h
      cases hsc : scoreList roms with
      | none =>
        rw [hsc] at h
        have h2 : (none : Option (List Decision × List String)) = some (ds, proc2) := h
        cases h2
      | some scored =>
        rw [hsc] at h
        have hm2 : (match sortDesc scored with
          | [] => phase1 rest proc
          | k :: tl =>
            let p := emitExact k.2 (tl.map (·.2)) proc
            match phase1 rest p.2 with
            | none => none
            | some (ds2, p3) => some (p.1 ++ ds2, p3)) = some (ds, proc2) := h
        cases hsd : sortDesc scored with
        | nil =>
          rw [hsd] at hm2
          have h2 : phase1 rest proc = some (ds, proc2) := hm2
          exact ih proc ds proc2 h2
        | cons k tl =>
          rw [hsd] at hm2
          have h2 : (match phase1 rest (emitExact k.2 (tl.map (·.2)) proc).2 with
            | none => none
            | some (ds2, p3) =>
              some ((emitExact k.2 (tl.map (·.2)) proc).1 ++ ds2, p3)) =
            some (ds, proc2) := hm2
          cases hp2 : phase1 rest (emitExact k.2 (tl.map (·.2)) proc).2 with
          | none =>
            rw [hp2] at h2
            have h3 : (none : Option (List Decision × List String)) = some (ds, proc2) := h2
            cases h3
          | some pr =>
            rcases pr with ⟨ds2, p3⟩
            rw [hp2] at h2
            have h3 : some ((emitExact k.2 (tl.map (·.2)) proc).1 ++ ds2, p3) =
              some (ds, proc2) := h2
            injection h3 with h4
            injection h4 with h5 h6
            subst h5
            subst h6
            exact EmitsOK_append _ _ _ _ _ (emitExact_ok k.2 (tl.map (·.2)) proc)
              (ih _ ds2 p3 hp2)
    · rw [if_neg hl] at h
      exact ih proc ds proc2 h

theorem emitGroup_ok (k : RomInfo) (rs : List RomInfo) :
    ∀ proc ds proc2, emitGroup k rs proc = some (ds, proc2) → EmitsOK proc ds proc2 := by
  induction rs with
  | nil =>
    intro proc ds proc2 h
    rw [emitGroup] at h
    injection h with h2
    injection h2 with h3 h4
    subst h3
    subst h4
    exact EmitsOK_nil proc
  | cons r rs ih =>
    intro proc ds proc2 h
    rw [emitGroup] at h
    by_cases hk : r.path = k.path
    · rw [if_pos hk] at h
      exact ih proc ds proc2 h
    · rw [if_neg hk] at h
      by_cases hp : r.path ∈ proc
      · rw [if_pos hp] at h
        exact ih proc ds proc2 h
      · rw [if_neg hp] at h
        cases hr : get_removal_reason r k with
        | none =>
          rw [hr] at h
          have h2 : (none : Option (List Decision × List String)) = some (ds, proc2) := h
          cases h2
        | some reason =>
          rw [hr] at h
          have h2 : (match emitGroup k rs (r.path :: proc) with
            | none => none
            | some (ds0, p2) =>
              some ({ platform := r.platform, remove := r.path, keep := k.path,
                      reason := reason, size := r.size } :: ds0, p2)) = some (ds, proc2) := h
          cases he : emitGroup k rs (r.path :: proc) with
          | none =>
            rw [he] at h2
            have h3 : (none : Option (List Decision × List String)) = some (ds, proc2) := h2
            cases h3
          | some pr =>
            rcases pr with ⟨ds0, p2⟩
            rw [he] at h2
            have h3 : some ({ platform := r.platform, remove := r.path, keep := k.path,
                              reason := reason, size := r.size } :: ds0, p2) =
              some (ds, proc2) := h2
            injection h3 with h4
            injection h4 with h5 h6
            subst h5
            subst h6
            exact EmitsOK_cons proc _ _ _ hp (ih (r.path :: proc) ds0 p2 he)

theorem processGroup_ok (platform : String) (roms : List RomInfo) (proc : List String)
    (ds : List Decision) (proc2 : List String)
    (h : processGroup platform roms proc = some (ds, proc2)) : EmitsOK proc ds proc2 := by
  unfold processGroup at h
  by_cases h1 : roms.length ≤ 1
  · rw [if_pos h1] at h
    injection h with h2
    injection h2 with h3 h4
    subst h3
    subst h4
    exact EmitsOK_nil proc
  · rw [if_neg h1] at h
    dsimp only at h
    by_cases h2 : (roms.filter (fun r => !decide (r.path ∈ proc))).length ≤ 1
    · rw [if_pos h2] at h
      injection h with h3
      injection h3 with h4 h5
      subst h4
      subst h5
      exact EmitsOK_nil proc
    · rw [if_neg h2] at h
      cases hk : phase2KeeperE platform (roms.filter (fun r => !decide (r.path ∈ proc))) with
      | none =>
        rw [hk] at h
        have h3 : (none : Option (List Decision × List String)) = some (ds, proc2) := h
        cases h3
      | some ko =>
        rw [hk] at h
        cases ko with
        | none =>
          have h3 : some (([] : List Decision), proc) = some (ds, proc2) := h
          injection h3 with h4
          injection h4 with h5 h6
          subst h5
          subst h6
          exact EmitsOK_nil proc
        | some k =>
          have h3 : emitGroup k (roms.filter (fun r => !decide (r.path ∈ proc))) proc =
            some (ds, proc2) := h
          exact emitGroup_ok k _ proc ds proc2 h3

theorem phase2Groups_ok (platform : String) (groups : List (String × List RomInfo)) :
    ∀ proc ds proc2, phase2Groups platform groups proc = some (ds, proc2) →
      EmitsOK proc ds proc2 := by
  induction groups with
  | nil =>
    intro proc ds proc2 h
    rw [phase2Groups] at h
    injection h with h2
    injection h2 with h3 h4
    subst h3
    subst h4
    exact EmitsOK_nil proc
  | cons g rest ih =>
    intro proc ds proc2 h
    rcases g with ⟨nm, roms⟩
    rw [phase2Groups] at h
    cases hp : processGroup platform roms proc with
    | none =>
      rw [hp] at h
      have h2 : (none : Option (List Decision × List String)) = some (ds, proc2) := h
      cases h2
    | some pr =>
      rcases pr with ⟨ds1, p2⟩
      rw [hp] at h
      have h2 : (match phase2Groups platform rest p2 with
        | none => none
        | some (ds2, p3) => some (ds1 ++ ds2, p3)) = some (ds, proc2) := h
      cases hq : phase2Groups platform rest p2 with
      | none =>
        rw [hq] at h2
        have h3 : (none : Option (List Decision × List String)) = some (ds, proc2) := h2
        cases h3
      | some pr2 =>
        rcases pr2 with ⟨ds2, p3⟩
        rw [hq] at h2
        have h3 : some (ds1 ++ ds2, p3) = some (ds, proc2) := h2
        injection h3 with h4
        injection h4 with h5 h6
        subst h5
        subst h6
        exact EmitsOK_append _ _ _ _ _ (processGroup_ok platform roms proc ds1 p2 hp)
          (ih p2 ds2 p3 hq)

theorem phase2_ok (idx : List (String × List (String × List RomInfo))) :
    ∀ proc ds proc2, phase2 idx proc = some (ds, proc2) → EmitsOK proc ds proc2 := by
  induction idx with
  | nil =>
    intro proc ds proc2 h
    rw [phase2] at h
    injection h with h2
    injection h2 with h3 h4
    subst h3
    subst h4
    exact EmitsOK_nil proc
  | cons g rest ih =>
    intro proc ds proc2 h
    rcases g with ⟨plat, groups⟩
    rw [phase2] at h
    cases hp : phase2Groups plat groups proc with
    | none =>
      rw [hp] at h
      have h2 : (none : Option (List Decision × List String)) = some (ds, proc2) := h
      cases h2
    | some pr =>
      rcases pr with ⟨ds1, p2⟩
      rw [hp] at h
      have h2 : (match phase2 rest p2 with
        | none => none
        | some (ds2, p3) => some (ds1 ++ ds2, p3)) = some (ds, proc2) := h
      cases hq : phase2 rest p2 with
      | none =>
        rw [hq] at h2
        have h3 : (none : Option (List Decision × List String)) = some (ds, proc2) := h2
        cases h3
      | some pr2 =>
        rcases pr2 with ⟨ds2, p3⟩
        rw [hq] at h2
        have h3 : some (ds1 ++ ds2, p3) = some (ds, proc2) := h2
        injection h3 with h4
        injection h4 with h5 h6
        subst h5
        subst h6
        exact EmitsOK_append _ _ _ _ _ (phase2Groups_ok plat groups proc ds1 p2 hp)
          (ih p2 ds2 p3 hq)

theorem phase3_ok (rs : List RomInfo) :
    ∀ proc, EmitsOK proc (phase3 rs proc).1 (phase3 rs proc).2 := by
  induction rs with
  | nil => intro proc; exact EmitsOK_nil proc
  | cons r rs ih =>
    intro proc
    by_cases hp : r.path ∈ proc
    · rw [show phase3 (r :: rs) proc = phase3 rs proc from by rw [phase3, if_pos hp]]
      exact ih proc
    · by_cases hb : r.is_bad = true
      · rw [show phase3 (r :: rs) proc =
          ({ platform := r.platform, remove := r.path, keep := "(none - bad ROM)",
             reason := "Bad ROM: " ++
               (let t := joinSep ", " r.tags;
                if t = "" then joinSep ", " r.bracket_tags else t),
             size := r.size } :: (phase3 rs (r.path :: proc)).1,
           (phase3 rs (r.path :: proc)).2) from by
          rw [phase3, if_neg hp, if_pos hb]]
        exact EmitsOK_cons proc _ _ _ hp (ih (r.path :: proc))
      · rw [show phase3 (r :: rs) proc = phase3 rs proc from by
          rw [phase3, if_neg hp, if_neg hb]]
        exact ih proc

/-- C1: for every scanned collection on which `find_duplicates` succeeds, the
emitted decision list removes no path twice: the decided-path marking is
cumulative across the three phases and each phase only emits decisions for
paths not already decided, so the removed paths are pairwise distinct. -/
theorem find_duplicates_removes_nodup (roms : List RomInfo) (out : List Decision)
    (h : find_duplicates roms = some out) : (out.map Decision.remove).Nodup := by
  unfold find_duplicates at h
  cases h1 : phase1 (indexByHash roms) [] with
  | none =>
    rw [h1] at h
    have h2 : (none : Option (List Decision)) = some out := h
    cases h2
  | some pr1 =>
    rcases pr1 with ⟨ds1, p1⟩
    rw [h1] at h
    have h2 : (match phase2 (indexByName roms) p1 with
      | none => none
      | some (ds2, p2) => some (ds1 ++ ds2 ++ (phase3 roms p2).1)) = some out := h
    cases h3 : phase2 (indexByName roms) p1 with
    | none =>
      rw [h3] at h2
      have h4 : (none : Option (List Decision)) = some out := h2
      cases h4
    | some pr2 =>
      rcases pr2 with ⟨ds2, p2⟩
      rw [h3] at h2
      have h4 : some (ds1 ++ ds2 ++ (phase3 roms p2).1) = some out := h2
      injection h4 with h5
      subst h5
      exact (EmitsOK_append _ _ _ _ _
        (EmitsOK_append _ _ _ _ _ (phase1_ok (indexByHash roms) [] ds1 p1 h1)
          (phase2_ok (indexByName roms) p1 ds2 p2 h3))
        (phase3_ok roms p2)).1

/-- Witness for C1: on the concrete collection `romsChain` the resolver
succeeds and no removed path repeats. -/
theorem find_duplicates_removes_nodup_witness :
    (((find_duplicates romsChain).get (by decide)).map Decision.remove).Nodup :=
  find_duplicates_removes_nodup romsChain ((find_duplicates romsChain).get (by decide))
    (Option.some_get (by decide)).symm

theorem PyNum.le_refl (a : PyNum) : a.le a := by
  unfold PyNum.le
  exact Int.le_refl _

theorem PyNum.le_total (a b : PyNum) : a.le b ∨ b.le a := by
  unfold PyNum.le
  exact Int.le_total _ _

theorem PyNum.le_trans (a b c : PyNum) (h1 : a.le b) (h2 : b.le c) : a.le c := by
  unfold PyNum.le at h1 h2 ⊢
  have ha : (0 : Int) < (a.den : Int) := by exact_mod_cast Nat.succ_pos a.den1
  have hb : (0 : Int) < (b.den : Int) := by exact_mod_cast Nat.succ_pos b.den1
  have hc : (0 : Int) < (c.den : Int) := by exact_mod_cast Nat.succ_pos c.den1
  nlinarith [mul_le_mul_of_nonneg_right h1 hc.le, mul_le_mul_of_nonneg_right h2 ha.le]

theorem lexLe_refl {α β : Type} [LinearOrder α] (q : β → β → Prop)
    (hq : ∀ x, q x x) (a : α × β) : lexLe (α := α) (β := β) q a a :=
  Or.inr ⟨rfl, hq a.2⟩

theorem lexLe_total {α β : Type} [LinearOrder α] (q : β → β → Prop)
    (hq : ∀ x y, q x y ∨ q y x) (a b : α × β) :
    lexLe (α := α) (β := β) q a b ∨ lexLe (α := α) (β := β) q b a := by
  unfold lexLe
  rcases lt_trichotomy a.1 b.1 with h | h | h
  · exact Or.inl (Or.inl h)
  · rcases hq a.2 b.2 with hq2 | hq2
    · exact Or.inl (Or.inr ⟨h, hq2⟩)
    · exact Or.inr (Or.inr ⟨h.symm, hq2⟩)
  · exact Or.inr (Or.inl h)

theorem lexLe_trans {α β : Type} [LinearOrder α] (q : β → β → Prop)
    (hq : ∀ x y z, q x y → q y z → q x z) (a b c : α × β)
    (h1 : lexLe (α := α) (β := β) q a b) (h2 : lexLe (α := α) (β := β) q b c) :
    lexLe (α := α) (β := β) q a c := by
  unfold lexLe at h1 h2 ⊢
  rcases h1 with h1 | ⟨he1, hq1⟩
  · rcases h2 with h2 | ⟨he2, hq2⟩
    · exact Or.inl (h1.trans h2)
    · exact Or.inl (lt_of_lt_of_eq h1 he2)
  · rcases h2 with h2 | ⟨he2, hq2⟩
    · exact Or.inl (lt_of_eq_of_lt he1 h2)
    · exact Or.inr ⟨he1.trans he2, hq a.2 b.2 c.2 hq1 hq2⟩

theorem scoreLE_refl (a : Score) : scoreLE a a := by
  unfold scoreLE
  exact lexLe_refl _ (fun x => lexLe_refl _ (fun y => lexLe_refl _
    (fun z => lexLe_refl _ PyNum.le_refl z) y) x) a

theorem scoreLE_total (a b : Score) : scoreLE a b ∨ scoreLE b a := by
  unfold scoreLE
  exact lexLe_total _ (fun x y => lexLe_total _ (fun x2 y2 => lexLe_total _
    (fun x3 y3 => lexLe_total _ PyNum.le_total x3 y3) x2 y2) x y) a b

theorem scoreLE_trans (a b c : Score) (h1 : scoreLE a b) (h2 : scoreLE b c) :
    scoreLE a c := by
  unfold scoreLE at h1 h2 ⊢
  exact lexLe_trans _ (fun x y z => lexLe_trans _ (fun x2 y2 z2 =>
    lexLe_trans _ (fun x3 y3 z3 => lexLe_trans _ PyNum.le_trans x3 y3 z3) x2 y2 z2)
    x y z) a b c h1 h2

theorem mem_insertDesc (x y : Score × RomInfo) (l : List (Score × RomInfo)) :
    y ∈ insertDesc x l ↔ y = x ∨ y ∈ l := by
  induction l with
  | nil =>
    rw [show insertDesc x [] = [x] from rfl]
    simp
  | cons z rest ih =>
    rw [show insertDesc x (z :: rest) =
      if scoreLE x.1 z.1 then z :: insertDesc x rest else x :: z :: rest from rfl]
    by_cases h : scoreLE x.1 z.1
    · rw [if_pos h]
      simp only [List.mem_cons, ih]
      tauto
    · rw [if_neg h]
      simp only [List.mem_cons]

theorem headMax_insertDesc (x : Score × RomInfo) (l : List (Score × RomInfo))
    (h : HeadMax l) : HeadMax (insertDesc x l) := by
  cases l with
  | nil =>
    intro p hp q hq
    have hpx : p = x := by
      have h2 : some x = some p := hp
      exact (Option.some.inj h2).symm
    have hqx : q = x := by
      rcases (mem_insertDesc x q []).1 hq with h3 | h3
      · exact h3
      · cases h3
    rw [hpx, hqx]
    exact scoreLE_refl _
  | cons z rest =>
    rw [show insertDesc x (z :: rest) =
      if scoreLE x.1 z.1 then z :: insertDesc x rest else x :: z :: rest from rfl]
    by_cases hxz : scoreLE x.1 z.1
    · rw [if_pos hxz]
      intro p hp q hq
      have hpz : p = z := (Option.some.inj hp).symm
      rw [hpz]
      rcases List.mem_cons.1 hq with he | hm
      · rw [he]
        exact scoreLE_refl _
      · rcases (mem_insertDesc x q rest).1 hm with he2 | hm2
        · rw [he2]
          exact hxz
        · exact h z rfl q (List.mem_cons_of_mem _ hm2)
    · rw [if_neg hxz]
      intro p hp q hq
      have hpx : p = x := (Option.some.inj hp).symm
      rw [hpx]
      have hzx : scoreLE z.1 x.1 := by
        rcases scoreLE_total x.1 z.1 with h2 | h2
        · exact absurd h2 hxz
        · exact h2
      rcases List.mem_cons.1 hq with he | hm
      · rw [he]
        exact scoreLE_refl _
      · rcases List.mem_cons.1 hm with he2 | hm2
        · rw [he2]
          exact hzx
        · exact scoreLE_trans _ _ _ (h z rfl q (List.mem_cons_of_mem _ hm2)) hzx

theorem sortDesc_foldl_headMax (l : List (Score × RomInfo)) :
    ∀ acc, HeadMax acc → HeadMax (l.foldl (fun acc x => insertDesc x acc) acc) := by
  induction l with
  | nil => intro acc h; exact h
  | cons x rest ih =>
    intro acc h
    rw [List.foldl_cons]
    exact ih _ (headMax_insertDesc x acc h)

theorem sortDesc_headMax (l : List (Score × RomInfo)) : HeadMax (sortDesc l) := by
  unfold sortDesc
  exact sortDesc_foldl_headMax l [] (fun p hp => by cases hp)

theorem mem_sortDesc_foldl (l : List (Score × RomInfo)) :
    ∀ acc y, y ∈ l.foldl (fun acc x => insertDesc x acc) acc ↔ y ∈ acc ∨ y ∈ l := by
  induction l with
  | nil => intro acc y; simp
  | cons x rest ih =>
    intro acc y
    rw [List.foldl_cons, ih, mem_insertDesc]
    simp only [List.mem_cons]
    tauto

theorem mem_sortDesc (l : List (Score × RomInfo)) (y : Score × RomInfo) :
    y ∈ sortDesc l ↔ y ∈ l := by
  unfold sortDesc
  rw [mem_sortDesc_foldl]
  simp

theorem scoreList_cons (r : RomInfo) (rs : List RomInfo) :
    scoreList (r :: rs) = (get_priority_score r).bind
      (fun s => (scoreList rs).map (fun tl => (s, r) :: tl)) := by
  unfold scoreList
  rw [List.mapM_cons]
  cases hg : get_priority_score r with
  | none => rfl
  | some s =>
    cases hm : rs.mapM (fun r => (get_priority_score r).map (fun s => (s, r))) with
    | none => simp [Option.bind, Option.map]
    | some tl => simp [Option.bind, Option.map]

theorem scoreList_sound (rs : List RomInfo) :
    ∀ scored, scoreList rs = some scored →
      (∀ p ∈ scored, get_priority_score p.2 = some p.1 ∧ p.2 ∈ rs) ∧
      (∀ r ∈ rs, ∃ s, (s, r) ∈ scored) := by
  induction rs with
  | nil =>
    intro scored h
    have h2 : some ([] : List (Score × RomInfo)) = some scored := h
    injection h2 with h3
    subst h3
    constructor
    · intro p hp; cases hp
    · intro r hr; cases hr
  | cons r rest ih =>
    intro scored h
    rw [scoreList_cons] at h
    cases hg : get_priority_score r with
    | none =>
      rw [hg] at h
      have h2 : (none : Option (List (Score × RomInfo))) = some scored := h
      cases h2
    | some s =>
      rw [hg] at h
      cases hm : scoreList rest with
      | none =>
        rw [hm] at h
        have h2 : (none : Option (List (Score × RomInfo))) = some scored := h
        cases h2
      | some tl =>
        rw [hm] at h
        have h2 : some ((s, r) :: tl) = some scored := h
        injection h2 with h3
        subst h3
        obtain ⟨ih1, ih2⟩ := ih tl hm
        constructor
        · intro p hp
          rcases List.mem_cons.1 hp with he | hm2
          · rw [he]
            exact ⟨hg, List.mem_cons_self _ _⟩
          · obtain ⟨hps, hpm⟩ := ih1 p hm2
            exact ⟨hps, List.mem_cons_of_mem _ hpm⟩
        · intro r2 hr2
          rcases List.mem_cons.1 hr2 with he | hm2
          · exact ⟨s, by rw [he]; exact List.mem_cons_self _ _⟩
          · obtain ⟨s2, hs2⟩ := ih2 r2 hm2
            exact ⟨s2, List.mem_cons_of_mem _ hs2⟩

theorem bucket_eq_filter_go (l : List RomInfo) (k : String) :
    ∀ m0, (assocFind (l.foldl (fun m r => insertAssoc m r.extension r) m0) k).getD [] =
      (assocFind m0 k).getD [] ++ l.filter (fun r => decide (r.extension = k)) := by
  induction l with
  | nil => intro m0; simp
  | cons r rest ih =>
    intro m0
    rw [List.foldl_cons, ih, assocFind_insertAssoc]
    by_cases h : r.extension = k
    · have hb : decide (r.extension = k) = true := decide_eq_true h
      rw [if_pos h, List.filter_cons, if_pos hb, h]
      simp [List.append_assoc]
    · have hb : ¬decide (r.extension = k) = true := by simpa using h
      rw [if_neg h, List.filter_cons, if_neg hb]

theorem emitGroup_keep (k : RomInfo) (rs : List RomInfo) :
    ∀ proc ds proc2, emitGroup k rs proc = some (ds, proc2) →
      ∀ d ∈ ds, d.keep = k.path := by
  induction rs with
  | nil =>
    intro proc ds proc2 h
    rw [emitGroup] at h
    injection h with h2
    injection h2 with h3 h4
    subst h3
    intro d hd
    cases hd
  | cons r rs ih =>
    intro proc ds proc2 h
    rw [emitGroup] at h
    by_cases hk2 : r.path = k.path
    · rw [if_pos hk2] at h
      exact ih proc ds proc2 h
    · rw [if_neg hk2] at h
      by_cases hp : r.path ∈ proc
      · rw [if_pos hp] at h
        exact ih proc ds proc2 h
      · rw [if_neg hp] at h
        cases hr : get_removal_reason r k with
        | none =>
          rw [hr] at h
          have h2 : (none : Option (List Decision × List String)) = some (ds, proc2) := h
          cases h2
        | some reason =>
          rw [hr] at h
          have h2 : (match emitGroup k rs (r.path :: proc) with
            | none => none
            | some (ds0, p2) =>
              some ({ platform := r.platform, remove := r.path, keep := k.path,
                      reason := reason, size := r.size } :: ds0, p2)) = some (ds, proc2) := h
          cases he : emitGroup k rs (r.path :: proc) with
          | none =>
            rw [he] at h2
            have h3 : (none : Option (List Decision × List String)) = some (ds, proc2) := h2
            cases h3
          | some pr =>
            rcases pr with ⟨ds0, p2⟩
            rw [he] at h2
            have h3 : some ({ platform := r.platform, remove := r.path, keep := k.path,
                              reason := reason, size := r.size } :: ds0, p2) =
              some (ds, proc2) := h2
            injection h3 with h4
            injection h4 with h5 h6
            subst h5
            intro d hd
            rcases List.mem_cons.1 hd with hde | hdm
            · rw [hde]
            · exact ih (r.path :: proc) ds0 p2 he d hdm

/-- C5: when a Phase-2 group has at least two undecided files and a keeper is
found, `processGroup` emits exactly the keeper's group loop, the keeper is one
of the undecided files, its extension heads the format-preference order of the
extensions present, it scores at least every undecided file of that same
extension, and every emitted decision keeps the keeper's path (so a file of a
more-preferred extension is kept over any higher-scoring file of a
less-preferred one). -/
theorem phase2_keeper_spec (platform : String) (roms : List RomInfo)
    (proc : List String) (remaining : List RomInfo) (k : RomInfo)
    (hrem : remaining = roms.filter (fun r => !decide (r.path ∈ proc)))
    (hlen2 : ¬remaining.length ≤ 1)
    (hk : phase2KeeperE platform remaining = some (some k)) :
    processGroup platform roms proc = emitGroup k remaining proc ∧
    k ∈ remaining ∧
    (∃ fs, formatOrder (getPreferredFormats platform)
        (remaining.foldl (fun m r => insertAssoc m r.extension r) []) =
          k.extension :: fs) ∧
    (∀ r ∈ remaining, r.extension = k.extension →
      ∃ sr sk, get_priority_score r = some sr ∧ get_priority_score k = some sk ∧
        scoreLE sr sk) ∧
    (∀ ds proc2, emitGroup k remaining proc = some (ds, proc2) →
      ∀ d ∈ ds, d.keep = k.path) := by
  subst hrem
  have hlen : ¬roms.length ≤ 1 := fun hle =>
    hlen2 (le_trans (List.length_filter_le _ _) hle)
  have hk0 := hk
  unfold phase2KeeperE at hk
  dsimp only at hk
  set b := (roms.filter (fun r => !decide (r.path ∈ proc))).foldl
    (fun m r => insertAssoc m r.extension r) [] with hb
  cases hfo : formatOrder (getPreferredFormats platform) b with
  | nil =>
    rw [hfo] at hk
    have h2 : some (none : Option RomInfo) = some (some k) := hk
    injection h2 with h3
    cases h3
  | cons f0 fs =>
    rw [hfo] at hk
    have hk2 : (match scoreList ((assocFind b f0).getD []) with
      | none => none
      | some scored =>
        match sortDesc scored with
        | [] => some none
        | p :: _ => some (some p.2)) = some (some k) := hk
    cases hsc : scoreList ((assocFind b f0).getD []) with
    | none =>
      rw [hsc] at hk2
      have h3 : (none : Option (Option RomInfo)) = some (some k) := hk2
      cases h3
    | some scored =>
      rw [hsc] at hk2
      have hk3 : (match sortDesc scored with
        | [] => some none
        | p :: _ => some (some p.2)) = some (some k) := hk2
      cases hsd : sortDesc scored with
      | nil =>
        rw [hsd] at hk3
        have h3 : some (none : Option RomInfo) = some (some k) := hk3
        injection h3 with h4
        cases h4
      | cons p tl =>
        rw [hsd] at hk3
        have h3 : some (some p.2) = some (some k) := hk3
        injection h3 with h4
        injection h4 with h5
        have hbucket : (assocFind b f0).getD [] =
            (roms.filter (fun r => !decide (r.path ∈ proc))).filter
              (fun r => decide (r.extension = f0)) := by
          rw [hb, bucket_eq_filter_go]
          simp [assocFind]
        obtain ⟨hsound1, hsound2⟩ := scoreList_sound _ scored hsc
        have hpmem : p ∈ scored := by
          have hps : p ∈ sortDesc scored := by
            rw [hsd]
            exact List.mem_cons_self _ _
          exact (mem_sortDesc scored p).1 hps
        obtain ⟨hpscore, hpbucket⟩ := hsound1 p hpmem
        rw [hbucket] at hpbucket
        have hkmem : k ∈ roms.filter (fun r => !decide (r.path ∈ proc)) := by
          rw [← h5]
          exact (List.mem_filter.1 hpbucket).1
        have hkext : k.extension = f0 := by
          rw [← h5]
          exact of_decide_eq_true (List.mem_filter.1 hpbucket).2
        have hkscore : get_priority_score k = some p.1 := by
          rw [← h5]
          exact hpscore
        refine ⟨?_, hkmem, ⟨fs, by rw [hkext]⟩, ?_, ?_⟩
        · unfold processGroup
          rw [if_neg hlen]
          dsimp only
          rw [if_neg hlen2, hk0]
        · intro r hr hrext
          have hrbucket : r ∈ (assocFind b f0).getD [] := by
            rw [hbucket]
            exact List.mem_filter.2 ⟨hr, decide_eq_true (hrext.trans hkext)⟩
          obtain ⟨sr, hsr⟩ := hsound2 r hrbucket
          obtain ⟨hsr2, hsr3⟩ := hsound1 (sr, r) hsr
          refine ⟨sr, p.1, hsr2, hkscore, ?_⟩
          have hhead : (sortDesc scored).head? = some p := by
            rw [hsd]
            rfl
          exact sortDesc_headMax scored p hhead (sr, r) ((mem_sortDesc _ _).2 hsr)
        · intro ds proc2 hemit d hd
          exact emitGroup_keep k _ proc ds proc2 hemit d hd

/-- Witness for C5: in the `Commodore 64` group of `romsC64`, the keeper is
the `.d64` file although the `.prg` file (tagged USA) outscores it. -/
theorem phase2_keeper_spec_witness :
    processGroup "Commodore 64" romsC64 [] =
      emitGroup (mkRomInfo "Commodore 64" "Game" ".d64" 5 none)
        (romsC64.filter (fun r => !decide (r.path ∈ ([] : List String)))) [] ∧
    mkRomInfo "Commodore 64" "Game" ".d64" 5 none ∈
      romsC64.filter (fun r => !decide (r.path ∈ ([] : List String))) ∧
    (∃ fs, formatOrder (getPreferredFormats "Commodore 64")
        ((romsC64.filter (fun r => !decide (r.path ∈ ([] : List String)))).foldl
          (fun m r => insertAssoc m r.extension r) []) =
          (mkRomInfo "Commodore 64" "Game" ".d64" 5 none).extension :: fs) ∧
    (∀ r ∈ romsC64.filter (fun r => !decide (r.path ∈ ([] : List String))),
      r.extension = (mkRomInfo "Commodore 64" "Game" ".d64" 5 none).extension →
      ∃ sr sk, get_priority_score r = some sr ∧
        get_priority_score (mkRomInfo "Commodore 64" "Game" ".d64" 5 none) = some sk ∧
        scoreLE sr sk) ∧
    (∀ ds proc2, emitGroup (mkRomInfo "Commodore 64" "Game" ".d64" 5 none)
        (romsC64.filter (fun r => !decide (r.path ∈ ([] : List String)))) [] =
          some (ds, proc2) →
      ∀ d ∈ ds, d.keep = (mkRomInfo "Commodore 64" "Game" ".d64" 5 none).path) :=
  phase2_keeper_spec "Commodore 64" romsC64 [] _ _ rfl (by decide) (by decide)

theorem hashInsert_none (m : List (String × List RomInfo)) (r : RomInfo)
    (h : r.md5 = none) : hashInsert m r = m := by
  unfold hashInsert
  rw [h]

theorem hashInsert_some (m : List (String × List RomInfo)) (r : RomInfo) (h2 : String)
    (h : r.md5 = some h2) :
    hashInsert m r = if h2.data = [] then m else insertAssoc m h2 r := by
  unfold hashInsert
  rw [h]

theorem hashBucket_eq_filter_go (roms : List RomInfo) (h : String) (hh : h.data ≠ []) :
    ∀ m0, (assocFind (roms.foldl hashInsert m0) h).getD [] =
      (assocFind m0 h).getD [] ++ roms.filter (fun r => decide (r.md5 = some h)) := by
  induction roms with
  | nil => intro m0; simp
  | cons r rest ih =>
    intro m0
    rw [List.foldl_cons]
    cases hm : r.md5 with
    | none =>
      have hpred : ¬decide (r.md5 = some h) = true := by simp [hm]
      rw [List.filter_cons, if_neg hpred, hashInsert_none m0 r hm, ih]
    | some h2 =>
      rw [hashInsert_some m0 r h2 hm]
      by_cases he : h2.data = []
      · have hpred : ¬decide (r.md5 = some h) = true := by
          simp only [hm, decide_eq_true_eq]
          intro hc
          exact hh (Option.some.inj hc ▸ he)
        rw [List.filter_cons, if_neg hpred, if_pos he, ih]
      · rw [if_neg he, ih, assocFind_insertAssoc]
        by_cases hk : h2 = h
        · have hpred : decide (r.md5 = some h) = true := by simp [hm, hk]
          rw [List.filter_cons, if_pos hpred, if_pos hk, hk]
          simp [List.append_assoc]
        · have hpred : ¬decide (r.md5 = some h) = true := by
            simp only [hm, decide_eq_true_eq]
            intro hc
            exact hk (Option.some.inj hc)
          rw [List.filter_cons, if_neg hpred, if_neg hk]

theorem hashBucket_eq_filter (roms : List RomInfo) (h : String) (hh : h.data ≠ []) :
    bucketOf roms h = roms.filter (fun r => decide (r.md5 = some h)) := by
  unfold bucketOf indexByHash
  rw [hashBucket_eq_filter_go roms h hh]
  simp [assocFind]

theorem indexByHash_fold_sound (univ : List RomInfo) :
    ∀ rest : List RomInfo, (∀ r ∈ rest, r ∈ univ) →
    ∀ (m : List (String × List RomInfo)),
      (∀ p2 ∈ m, ∀ r ∈ p2.2, r ∈ univ ∧ r.md5 = some p2.1) →
      ∀ p2 ∈ rest.foldl hashInsert m,
        ∀ r ∈ p2.2, r ∈ univ ∧ r.md5 = some p2.1 := by
  intro rest
  induction rest with
  | nil => intro _ m hm p2 hp2; exact hm p2 hp2
  | cons r0 rs ih =>
    intro hsub m hm
    rw [List.foldl_cons]
    refine ih (fun r hr => hsub r (List.mem_cons_of_mem _ hr)) _ ?_
    cases hmd : r0.md5 with
    | none =>
      rw [hashInsert_none m r0 hmd]
      exact hm
    | some h2 =>
      rw [hashInsert_some m r0 h2 hmd]
      by_cases he : h2.data = []
      · rw [if_pos he]
        exact hm
      · rw [if_neg he]
        intro p2 hp2 r hr
        rcases p2 with ⟨k2, g2⟩
        rcases mem_insertAssoc m h2 r0 k2 g2 hp2 with hold | ⟨hk, hcase⟩
        · exact hm _ hold r hr
        · have hnew : r = r0 → r ∈ univ ∧ r.md5 = some k2 := fun hre => by
            rw [hre, hk]
            exact ⟨hsub r0 (List.mem_cons_self _ _), hmd⟩
          rcases hcase with hg | ⟨g, hgm, hge⟩
          · rw [hg] at hr
            have hrr : r = r0 := by simpa using hr
            exact hnew hrr
          · rw [hge] at hr
            rcases List.mem_append.1 hr with hrg | hrv
            · have hres := hm (h2, g) hgm r hrg
              rw [hk]
              exact hres
            · have hrr : r = r0 := by simpa using hrv
              exact hnew hrr

theorem mem_keys_insertAssoc {β : Type} (m : List (String × List β)) (k : String) (v : β)
    (x : String) (h : x ∈ (insertAssoc m k v).map Prod.fst) :
    x ∈ m.map Prod.fst ∨ x = k := by
  induction m with
  | nil =>
    unfold insertAssoc at h
    have h2 : x = k := by simpa using h
    exact Or.inr h2
  | cons kv rest ih =>
    rcases kv with ⟨k2, vs⟩
    by_cases hk : k2 = k
    · rw [show insertAssoc ((k2, vs) :: rest) k v = (k2, vs ++ [v]) :: rest from by
        rw [insertAssoc]; rw [if_pos hk]] at h
      rcases List.mem_cons.1 h with he | hm
      · exact Or.inl (by rw [List.map_cons, he]; exact List.mem_cons_self _ _)
      · exact Or.inl (List.mem_cons_of_mem _ hm)
    · rw [show insertAssoc ((k2, vs) :: rest) k v = (k2, vs) :: insertAssoc rest k v from by
        rw [insertAssoc]; rw [if_neg hk]] at h
      rcases List.mem_cons.1 h with he | hm
      · exact Or.inl (by rw [he]; exact List.mem_cons_self _ _)
      · rcases ih hm with h1 | h1
        · exact Or.inl (List.mem_cons_of_mem _ h1)
        · exact Or.inr h1

theorem keys_nodup_insertAssoc {β : Type} (m : List (String × List β)) (k : String) (v : β)
    (h : (m.map Prod.fst).Nodup) : ((insertAssoc m k v).map Prod.fst).Nodup := by
  induction m with
  | nil =>
    unfold insertAssoc
    simp
  | cons kv rest ih =>
    rcases kv with ⟨k2, vs⟩
    rw [List.map_cons] at h
    obtain ⟨hnot, hrest⟩ := List.nodup_cons.1 h
    by_cases hk : k2 = k
    · rw [show insertAssoc ((k2, vs) :: rest) k v = (k2, vs ++ [v]) :: rest from by
        rw [insertAssoc]; rw [if_pos hk]]
      rw [List.map_cons]
      exact List.nodup_cons.2 ⟨hnot, hrest⟩
    · rw [show insertAssoc ((k2, vs) :: rest) k v = (k2, vs) :: insertAssoc rest k v from by
        rw [insertAssoc]; rw [if_neg hk]]
      rw [List.map_cons]
      refine List.nodup_cons.2 ⟨?_, ih hrest⟩
      intro hmem
      rcases mem_keys_insertAssoc rest k v k2 hmem with h1 | h1
      · exact hnot h1
      · exact hk h1

theorem keys_nodup_indexByHash (roms : List RomInfo) :
    ((indexByHash roms).map Prod.fst).Nodup := by
  unfold indexByHash
  have hgen : ∀ rest : List RomInfo, ∀ m : List (String × List RomInfo),
      (m.map Prod.fst).Nodup → ((rest.foldl hashInsert m).map Prod.fst).Nodup := by
    intro rest
    induction rest with
    | nil => intro m hm; exact hm
    | cons r0 rs ih =>
      intro m hm
      rw [List.foldl_cons]
      refine ih _ ?_
      cases hmd : r0.md5 with
      | none =>
        rw [hashInsert_none m r0 hmd]
        exact hm
      | some h2 =>
        rw [hashInsert_some m r0 h2 hmd]
        by_cases he : h2.data = []
        · rw [if_pos he]
          exact hm
        · rw [if_neg he]
          exact keys_nodup_insertAssoc m h2 r0 hm
  exact hgen roms [] (by simp)

theorem path_inj_of_nodup (roms : List RomInfo)
    (hnd : (roms.map RomInfo.path).Nodup) (a b : RomInfo)
    (ha : a ∈ roms) (hb : b ∈ roms) (hp : a.path = b.path) : a = b :=
  List.inj_on_of_nodup_map hnd ha hb hp

theorem one_lt_length_of_mem_ne {α : Type} (l : List α) (a b : α)
    (ha : a ∈ l) (hb : b ∈ l) (hne : a ≠ b) : 1 < l.length := by
  cases l with
  | nil => cases ha
  | cons x xs =>
    cases xs with
    | nil =>
      have ha2 : a = x := by simpa using ha
      have hb2 : b = x := by simpa using hb
      exact absurd (ha2.trans hb2.symm) hne
    | cons y ys =>
      simp only [List.length_cons]
      omega

theorem emitExact_reason (k : RomInfo) (rs : List RomInfo) :
    ∀ proc, ∀ d ∈ (emitExact k rs proc).1, d.reason = exactReason := by
  induction rs with
  | nil => intro proc d hd; cases hd
  | cons r rs ih =>
    intro proc d hd
    by_cases hp : r.path ∈ proc
    · rw [show emitExact k (r :: rs) proc = emitExact k rs proc from by
        rw [emitExact, if_pos hp]] at hd
      exact ih proc d hd
    · rw [show emitExact k (r :: rs) proc =
        ({ platform := r.platform, remove := r.path, keep := k.path,
           reason := exactReason, size := r.size } :: (emitExact k rs (r.path :: proc)).1,
         (emitExact k rs (r.path :: proc)).2) from by
        rw [emitExact, if_neg hp]] at hd
      rcases List.mem_cons.1 hd with he | hm
      · rw [he]
      · exact ih (r.path :: proc) d hm

theorem mem_emitExact_proc (k : RomInfo) (rs : List RomInfo) :
    ∀ proc x, x ∈ (emitExact k rs proc).2 → x ∈ proc ∨ ∃ r2 ∈ rs, r2.path = x := by
  induction rs with
  | nil => intro proc x hx; exact Or.inl hx
  | cons r rs ih =>
    intro proc x hx
    by_cases hp : r.path ∈ proc
    · rw [show emitExact k (r :: rs) proc = emitExact k rs proc from by
        rw [emitExact, if_pos hp]] at hx
      rcases ih proc x hx with h1 | ⟨r2, hr2, hr2p⟩
      · exact Or.inl h1
      · exact Or.inr ⟨r2, List.mem_cons_of_mem _ hr2, hr2p⟩
    · rw [show emitExact k (r :: rs) proc =
        ({ platform := r.platform, remove := r.path, keep := k.path,
           reason := exactReason, size := r.size } :: (emitExact k rs (r.path :: proc)).1,
         (emitExact k rs (r.path :: proc)).2) from by
        rw [emitExact, if_neg hp]] at hx
      rcases ih (r.path :: proc) x hx with h1 | ⟨r2, hr2, hr2p⟩
      · rcases List.mem_cons.1 h1 with he | hm
        · exact Or.inr ⟨r, List.mem_cons_self _ _, he.symm⟩
        · exact Or.inl hm
      · exact Or.inr ⟨r2, List.mem_cons_of_mem _ hr2, hr2p⟩

theorem emitExact_emits (k : RomInfo) (rs : List RomInfo) :
    ∀ proc r, r ∈ rs → r.path ∉ proc →
      ∃ d ∈ (emitExact k rs proc).1,
        d.remove = r.path ∧ d.reason = exactReason ∧ d.keep = k.path := by
  induction rs with
  | nil => intro proc r hr; cases hr
  | cons r0 rs ih =>
    intro proc r hr hproc
    by_cases hp : r0.path ∈ proc
    · rw [show emitExact k (r0 :: rs) proc = emitExact k rs proc from by
        rw [emitExact, if_pos hp]]
      rcases List.mem_cons.1 hr with he | hm
      · exact absurd (he ▸ hproc) (fun hc => hc (he ▸ hp))
      · exact ih proc r hm hproc
    · rw [show emitExact k (r0 :: rs) proc =
        ({ platform := r0.platform, remove := r0.path, keep := k.path,
           reason := exactReason, size := r0.size } :: (emitExact k rs (r0.path :: proc)).1,
         (emitExact k rs (r0.path :: proc)).2) from by
        rw [emitExact, if_neg hp]]
      by_cases hpath : r.path = r0.path
      · refine ⟨_, List.mem_cons_self _ _, ?_, rfl, rfl⟩
        exact hpath.symm
      · rcases List.mem_cons.1 hr with he | hm
        · exact absurd (congrArg RomInfo.path he) hpath
        · obtain ⟨d, hd, hdp⟩ := ih (r0.path :: proc) r hm (by
            intro hc
            rcases List.mem_cons.1 hc with he2 | hm2
            · exact hpath he2
            · exact hproc hm2)
          exact ⟨d, List.mem_cons_of_mem _ hd, hdp⟩

theorem phase1_reason (buckets : List (String × List RomInfo)) :
    ∀ proc ds proc2, phase1 buckets proc = some (ds, proc2) →
      ∀ d ∈ ds, d.reason = exactReason := by
  induction buckets with
  | nil =>
    intro proc ds proc2 h
    rw [phase1] at h
    injection h with h2
    injection h2 with h3 h4
    subst h3
    intro d hd
    cases hd
  | cons b rest ih =>
    intro proc ds proc2 h
    rcases b with ⟨hsh, roms⟩
    rw [phase1] at h
    by_cases hl : 1 < roms.length
    · rw [if_pos hl] at h
      cases hsc : scoreList roms with
      | none =>
        rw [hsc] at h
        have h2 : (none : Option (List Decision × List String)) = some (ds, proc2) := h
        cases h2
      | some scored =>
        rw [hsc] at h
        have hm2 : (match sortDesc scored with
          | [] => phase1 rest proc
          | k :: tl =>
            let p := emitExact k.2 (tl.map (·.2)) proc
            match phase1 rest p.2 with
            | none => none
            | some (ds2, p3) => some (p.1 ++ ds2, p3)) = some (ds, proc2) := h
        cases hsd : sortDesc scored with
        | nil =>
          rw [hsd] at hm2
          exact ih proc ds proc2 hm2
        | cons k tl =>
          rw [hsd] at hm2
          have h2 : (match phase1 rest (emitExact k.2 (tl.map (·.2)) proc).2 with
            | none => none
            | some (ds2, p3) =>
              some ((emitExact k.2 (tl.map (·.2)) proc).1 ++ ds2, p3)) =
            some (ds, proc2) := hm2
          cases hp2 : phase1 rest (emitExact k.2 (tl.map (·.2)) proc).2 with
          | none =>
            rw [hp2] at h2
            have h3 : (none : Option (List Decision × List String)) = some (ds, proc2) := h2
            cases h3
          | some pr =>
            rcases pr with ⟨ds2, p3⟩
            rw [hp2] at h2
            have h3 : some ((emitExact k.2 (tl.map (·.2)) proc).1 ++ ds2, p3) =
              some (ds, proc2) := h2
            injection h3 with h4
            injection h4 with h5 h6
            subst h5
            intro d hd
            rcases List.mem_append.1 hd with hm3 | hm3
            · exact emitExact_reason k.2 _ proc d hm3
            · exact ih _ ds2 p3 hp2 d hm3
    · rw [if_neg hl] at h
      exact ih proc ds proc2 h

theorem phase1_emits (buckets : List (String × List RomInfo)) :
    ∀ proc ds proc2, phase1 buckets proc = some (ds, proc2) →
    ((buckets.map Prod.fst).Nodup) →
    ∀ hsh bkt, (hsh, bkt) ∈ buckets → 1 < bkt.length →
    ∀ kp, phase1KeeperPath bkt = some kp →
    ∀ r ∈ bkt, r.path ≠ kp → r.path ∉ proc →
    (∀ p2 ∈ buckets, p2.1 ≠ hsh → ∀ r2 ∈ p2.2, r2.path ≠ r.path) →
    ∃ d ∈ ds, d.remove = r.path ∧ d.reason = exactReason ∧ d.keep = kp := by
  induction buckets with
  | nil =>
    intro proc ds proc2 h hkeys hsh bkt hmem
    cases hmem
  | cons b rest ih =>
    intro proc ds proc2 h hkeys hsh bkt hmem hlen kp hkp r hr hlose hproc hothers
    rcases b with ⟨h0, bkt0⟩
    rw [phase1] at h
    rw [List.map_cons] at hkeys
    obtain ⟨hk0not, hkeys2⟩ := List.nodup_cons.1 hkeys
    rcases List.mem_cons.1 hmem with hhead | htail
    · injection hhead with hh1 hh2
      subst hh1
      subst hh2
      rw [if_pos hlen] at h
      cases hsc : scoreList bkt with
      | none =>
        rw [hsc] at h
        have h2 : (none : Option (List Decision × List String)) = some (ds, proc2) := h
        cases h2
      | some scored =>
        rw [hsc] at h
        have hm2 : (match sortDesc scored with
          | [] => phase1 rest proc
          | k :: tl =>
            let p := emitExact k.2 (tl.map (·.2)) proc
            match phase1 rest p.2 with
            | none => none
            | some (ds2, p3) => some (p.1 ++ ds2, p3)) = some (ds, proc2) := h
        obtain ⟨hsound1, hsound2⟩ := scoreList_sound bkt scored hsc
        cases hsd : sortDesc scored with
        | nil =>
          obtain ⟨s, hs⟩ := hsound2 r hr
          have hmem2 : (s, r) ∈ sortDesc scored := (mem_sortDesc scored (s, r)).2 hs
          rw [hsd] at hmem2
          cases hmem2
        | cons k tl =>
          rw [hsd] at hm2
          have hkp2 : kp = k.2.path := by
            unfold phase1KeeperPath at hkp
            rw [hsc] at hkp
            have h3 : (match sortDesc scored with
              | [] => none
              | k :: _ => some k.2.path) = some kp := hkp
            rw [hsd] at h3
            have h4 : some k.2.path = some kp := h3
            exact (Option.some.inj h4).symm
          obtain ⟨s, hs⟩ := hsound2 r hr
          have hsmem : (s, r) ∈ k :: tl := by
            rw [← hsd]
            exact (mem_sortDesc scored (s, r)).2 hs
          have hrtl : r ∈ tl.map (·.2) := by
            rcases List.mem_cons.1 hsmem with he | hm3
            · have hrk : r = k.2 := congrArg Prod.snd he
              exact absurd (by rw [hkp2, ← hrk] : r.path = kp) hlose
            · exact List.mem_map_of_mem _ hm3
          have h2 : (match phase1 rest (emitExact k.2 (tl.map (·.2)) proc).2 with
            | none => none
            | some (ds2, p3) =>
              some ((emitExact k.2 (tl.map (·.2)) proc).1 ++ ds2, p3)) =
            some (ds, proc2) := hm2
          cases hp2 : phase1 rest (emitExact k.2 (tl.map (·.2)) proc).2 with
          | none =>
            rw [hp2] at h2
            have h3 : (none : Option (List Decision × List String)) = some (ds, proc2) := h2
            cases h3
          | some pr =>
            rcases pr with ⟨ds2, p3⟩
            rw [hp2] at h2
            have h3 : some ((emitExact k.2 (tl.map (·.2)) proc).1 ++ ds2, p3) =
              some (ds, proc2) := h2
            injection h3 with h4
            injection h4 with h5 h6
            subst h5
            obtain ⟨d, hd, hdp⟩ := emitExact_emits k.2 (tl.map (·.2)) proc r hrtl hproc
            refine ⟨d, List.mem_append.2 (Or.inl hd), hdp.1, hdp.2.1, ?_⟩
            rw [hdp.2.2, hkp2]
    · have hne0 : h0 ≠ hsh := by
        intro he
        have hmem2 : hsh ∈ rest.map Prod.fst := List.mem_map_of_mem Prod.fst htail
        refine hk0not ?_
        show h0 ∈ rest.map Prod.fst
        rw [he]
        exact hmem2
      have hothers2 : ∀ p2 ∈ rest, p2.1 ≠ hsh → ∀ r2 ∈ p2.2, r2.path ≠ r.path :=
        fun p2 hp2 => hothers p2 (List.mem_cons_of_mem _ hp2)
      have hbkt0 : ∀ r2 ∈ bkt0, r2.path ≠ r.path :=
        hothers (h0, bkt0) (List.mem_cons_self _ _) hne0
      by_cases hl : 1 < bkt0.length
      · rw [if_pos hl] at h
        cases hsc : scoreList bkt0 with
        | none =>
          rw [hsc] at h
          have h2 : (none : Option (List Decision × List String)) = some (ds, proc2) := h
          cases h2
        | some scored =>
          rw [hsc] at h
          have hm2 : (match sortDesc scored with
            | [] => phase1 rest proc
            | k :: tl =>
              let p := emitExact k.2 (tl.map (·.2)) proc
              match phase1 rest p.2 with
              | none => none
              | some (ds2, p3) => some (p.1 ++ ds2, p3)) = some (ds, proc2) := h
          cases hsd : sortDesc scored with
          | nil =>
            rw [hsd] at hm2
            exact ih proc ds proc2 hm2 hkeys2 hsh bkt htail hlen kp hkp r hr hlose hproc
              hothers2
          | cons k tl =>
            rw [hsd] at hm2
            have h2 : (match phase1 rest (emitExact k.2 (tl.map (·.2)) proc).2 with
              | none => none
              | some (ds2, p3) =>
                some ((emitExact k.2 (tl.map (·.2)) proc).1 ++ ds2, p3)) =
              some (ds, proc2) := hm2
            cases hp2 : phase1 rest (emitExact k.2 (tl.map (·.2)) proc).2 with
            | none =>
              rw [hp2] at h2
              have h3 : (none : Option (List Decision × List String)) = some (ds, proc2) := h2
              cases h3
            | some pr =>
              rcases pr with ⟨ds2, p3⟩
              rw [hp2] at h2
              have h3 : some ((emitExact k.2 (tl.map (·.2)) proc).1 ++ ds2, p3) =
                some (ds, proc2) := h2
              injection h3 with h4
              injection h4 with h5 h6
              subst h5
              have hproc2 : r.path ∉ (emitExact k.2 (tl.map (·.2)) proc).2 := by
                intro hc
                rcases mem_emitExact_proc k.2 (tl.map (·.2)) proc r.path hc with
                  h4 | ⟨r2, hr2, hr2p⟩
                · exact hproc h4
                · rcases List.mem_map.1 hr2 with ⟨q, hq, hq2⟩
                  have hqs : q ∈ scored := (mem_sortDesc scored q).1 (by
                    rw [hsd]
                    exact List.mem_cons_of_mem _ hq)
                  have hqb := (scoreList_sound bkt0 scored hsc).1 q hqs
                  exact hbkt0 q.2 hqb.2 (by rw [hq2]; exact hr2p)
              obtain ⟨d, hd, hdp⟩ := ih _ ds2 p3 hp2 hkeys2 hsh bkt htail hlen kp hkp r hr
                hlose hproc2 hothers2
              exact ⟨d, List.mem_append.2 (Or.inr hd), hdp⟩
      · rw [if_neg hl] at h
        exact ih proc ds proc2 h hkeys2 hsh bkt htail hlen kp hkp r hr hlose hproc hothers2

/-- C4: on a collection of distinct paths, when two files share a (truthy)
content hash and also share platform and normalized name, the losing file of
the hash bucket receives its decision in Phase 1: some emitted decision
removes it with the exact-duplicate reason and the bucket keeper's path, and
every decision that removes it carries the exact-duplicate reason, never a
name-based one. -/
theorem hash_precedence (roms : List RomInfo) (r1 r2 : RomInfo) (h : String)
    (kp : String) (out : List Decision)
    (hnd : (roms.map RomInfo.path).Nodup)
    (hr1 : r1 ∈ roms) (hr2 : r2 ∈ roms)
    (hpne : r1.path ≠ r2.path)
    (hm1 : r1.md5 = some h) (hm2 : r2.md5 = some h) (hh : h.data ≠ [])
    (hplat : r1.platform = r2.platform)
    (hname : get_normalized_name r1 = get_normalized_name r2)
    (hkp : phase1KeeperPath (bucketOf roms h) = some kp)
    (hlose : r1.path ≠ kp)
    (hout : find_duplicates roms = some out) :
    (∃ d ∈ out, d.remove = r1.path ∧ d.reason = exactReason ∧ d.keep = kp) ∧
    (∀ d ∈ out, d.remove = r1.path → d.reason = exactReason) := by
  have hbf := hashBucket_eq_filter roms h hh
  have hb1 : r1 ∈ bucketOf roms h := by
    rw [hbf]
    exact List.mem_filter.2 ⟨hr1, decide_eq_true hm1⟩
  have hb2 : r2 ∈ bucketOf roms h := by
    rw [hbf]
    exact List.mem_filter.2 ⟨hr2, decide_eq_true hm2⟩
  have hr12 : r1 ≠ r2 := fun he => hpne (congrArg RomInfo.path he)
  have hlen : 1 < (bucketOf roms h).length := one_lt_length_of_mem_ne _ r1 r2 hb1 hb2 hr12
  unfold find_duplicates at hout
  cases h1 : phase1 (indexByHash roms) [] with
  | none =>
    rw [h1] at hout
    have h2 : (none : Option (List Decision)) = some out := hout
    cases h2
  | some pr1 =>
    rcases pr1 with ⟨ds1, p1⟩
    rw [h1] at hout
    have hout2 : (match phase2 (indexByName roms) p1 with
      | none => none
      | some (ds2, p2) => some (ds1 ++ ds2 ++ (phase3 roms p2).1)) = some out := hout
    cases h3 : phase2 (indexByName roms) p1 with
    | none =>
      rw [h3] at hout2
      have h4 : (none : Option (List Decision)) = some out := hout2
      cases h4
    | some pr2 =>
      rcases pr2 with ⟨ds2, p2⟩
      rw [h3] at hout2
      have h4 : some (ds1 ++ ds2 ++ (phase3 roms p2).1) = some out := hout2
      injection h4 with h5
      subst h5
      cases hfind : assocFind (indexByHash roms) h with
      | none =>
        exfalso
        have hempty : bucketOf roms h = [] := by
          unfold bucketOf
          rw [hfind]
          rfl
        rw [hempty] at hb1
        cases hb1
      | some bkt =>
        have hbkt : bucketOf roms h = bkt := by
          unfold bucketOf
          rw [hfind]
          rfl
        have hmemidx : (h, bkt) ∈ indexByHash roms := assocFind_mem _ _ _ hfind
        rw [hbkt] at hlen hkp hb1
        have hothers : ∀ p3 ∈ indexByHash roms, p3.1 ≠ h →
            ∀ r3 ∈ p3.2, r3.path ≠ r1.path := by
          intro p3 hp3 hpne2 r3 hr3 hpath
          have hp3b : p3 ∈ roms.foldl hashInsert [] := by
            rw [← show indexByHash roms = roms.foldl hashInsert [] from rfl]
            exact hp3
          obtain ⟨hr3u, hr3m⟩ := indexByHash_fold_sound roms roms (fun r hr => hr) []
            (fun p4 hp4 => absurd hp4 (List.not_mem_nil _)) p3 hp3b r3 hr3
          have hr3e : r3 = r1 := path_inj_of_nodup roms hnd r3 r1 hr3u hr1 hpath
          rw [hr3e, hm1] at hr3m
          exact hpne2 (Option.some.inj hr3m).symm
        obtain ⟨d0, hd0, hd0p⟩ := phase1_emits (indexByHash roms) [] ds1 p1 h1
          (keys_nodup_indexByHash roms) h bkt hmemidx hlen kp hkp r1 hb1 hlose
          (List.not_mem_nil _) hothers
        have e1 := phase1_ok (indexByHash roms) [] ds1 p1 h1
        have e2 := phase2_ok (indexByName roms) p1 ds2 p2 h3
        have e3 := phase3_ok roms p2
        have hp1mem : r1.path ∈ p1 := by
          have hmem2 := e1.2.2.2 d0 hd0
          rw [hd0p.1] at hmem2
          exact hmem2
        refine ⟨⟨d0, List.mem_append.2 (Or.inl (List.mem_append.2 (Or.inl hd0))), hd0p⟩, ?_⟩
        intro d hd hdr
        rcases List.mem_append.1 hd with h12 | h3m
        · rcases List.mem_append.1 h12 with hm1d | hm2d
          · exact phase1_reason (indexByHash roms) [] ds1 p1 h1 d hm1d
          · exfalso
            have hfresh := e2.2.1 d hm2d
            rw [hdr] at hfresh
            exact hfresh hp1mem
        · exfalso
          have hfresh := e3.2.1 d h3m
          rw [hdr] at hfresh
          exact hfresh (e2.2.2.1 r1.path hp1mem)

/-- Witness for C4: in `romsPair` both files share hash `h1`, platform and
normalized name; the plain `Game` file loses to the USA copy and its only
decision is the exact-duplicate one. -/
theorem hash_precedence_witness :
    (∃ d ∈ (find_duplicates romsPair).get (by decide),
      d.remove = (mkRomInfo "NES" "Game" ".nes" 10 (some "h1")).path ∧
      d.reason = exactReason ∧ d.keep = "NES/Game (USA).nes") ∧
    (∀ d ∈ (find_duplicates romsPair).get (by decide),
      d.remove = (mkRomInfo "NES" "Game" ".nes" 10 (some "h1")).path →
      d.reason = exactReason) :=
  hash_precedence romsPair (mkRomInfo "NES" "Game" ".nes" 10 (some "h1"))
    (mkRomInfo "NES" "Game (USA)" ".nes" 11 (some "h1")) "h1" "NES/Game (USA).nes"
    ((find_duplicates romsPair).get (by decide))
    (by decide) (by decide) (by decide) (by decide) (by decide) (by decide) (by decide)
    (by decide) (by decide) (by decide) (by decide)
    (Option.some_get (by decide)).symm
